import Mathlib

/-!
Verification development for the dynamic-protobuf BDD harness
(`src/proto_dyn.rs`, `src/broker.rs`).

The embedding models:
* `serde_json::Value` as `Json` (JSON numbers are modelled at integral
  precision: every number literal relevant to the claims is an integer in
  the `i64`/`u64` range; float leaf values and bit-level `f32`/`f64`
  semantics are abstracted, see `f32OfNum`);
* the `prost_reflect` descriptor catalog (`DescriptorPool`,
  `MessageDescriptor`, `FieldDescriptor`, `Kind`, enum descriptors);
* `prost_reflect::Value` / `DynamicMessage` as `PbValue` / `DynMessage`,
  where a dynamic message stores its present fields as an association
  list sorted by field number (mirroring the number-keyed field map of
  the library, which also encodes fields in field-number order);
* the protobuf binary wire format (varint / zigzag / fixed-width /
  length-delimited) used by `encode_message` / `decode_message`.
  String payloads are modelled at scalar code-point granularity (one
  list entry per character) rather than UTF-8 bytes; this is invisible
  to every claim, which only ever compares decoded values with encoded
  ones;
* the `base64` standard-alphabet codec with mandatory canonical padding
  used for `bytes` fields;
* the broker operations `send_message` and `expect_message`, the latter
  over an explicit finite trace of channel receive events.
-/

set_option maxHeartbeats 1000000
set_option linter.unusedVariables false

namespace RustBdd

/-! ### JSON values (`serde_json::Value`) -/

/-- `serde_json::Value`, with numbers restricted to the integral range the
claims exercise (`i64` ∪ `u64`).  Objects are association lists in map
iteration order with pairwise-distinct keys when they originate from a
parsed document. -/
inductive Json where
  | null
  | bool (b : Bool)
  | num (n : Int)
  | str (s : String)
  | arr (xs : List Json)
  | obj (fields : List (String × Json))
  deriving Repr

mutual

/-- Structural equality of JSON values (`serde_json::Value::eq` on the
shapes that can actually meet in `json_partial_match`'s fall-through arm:
scalars and mismatched constructors). -/
def Json.beq : Json → Json → Bool
  | .null, .null => true
  | .bool a, .bool b => a == b
  | .num a, .num b => a == b
  | .str a, .str b => a == b
  | .arr a, .arr b => Json.beqList a b
  | .obj a, .obj b => Json.beqFields a b
  | _, _ => false

def Json.beqList : List Json → List Json → Bool
  | [], [] => true
  | a :: as, b :: bs => Json.beq a b && Json.beqList as bs
  | _, _ => false

def Json.beqFields : List (String × Json) → List (String × Json) → Bool
  | [], [] => true
  | (k, a) :: as, (k', b) :: bs => k == k' && Json.beq a b && Json.beqFields as bs
  | _, _ => false

end

/-- `serde_json::Map::get`: keyed lookup in an object (keys of a parsed
document are unique, so first-match lookup coincides with map lookup). -/
def jlookup (fields : List (String × Json)) (k : String) : Option Json :=
  match fields with
  | [] => none
  | (k', v) :: rest => if k' = k then some v else jlookup rest k

/-! ### `json_partial_match` (src/proto_dyn.rs:154-163)

The Rust source is a single recursive function whose object and array
arms close over the recursive call via `iter().all` / `iter().any`; the
closures are split into mutual helpers (`jpmFields` = the `all` over
expected object entries, `jpmList` = the `all` over expected array
elements, `jpmAny` = the `any` over actual array elements) so that the
definition is accepted by the termination checker. -/

mutual

def jsonPartialMatch : Json → Json → Bool
  | .obj eo, .obj ao => jpmFields eo ao
  | .arr ea, .arr aa => jpmList ea aa
  | e, a => Json.beq e a

def jpmFields : List (String × Json) → List (String × Json) → Bool
  | [], _ => true
  | (k, ev) :: rest, ao =>
      (match jlookup ao k with
       | some av => jsonPartialMatch ev av
       | none => false) && jpmFields rest ao

def jpmList : List Json → List Json → Bool
  | [], _ => true
  | ev :: rest, aa => jpmAny ev aa && jpmList rest aa

def jpmAny (ev : Json) : List Json → Bool
  | [] => false
  | av :: rest => jsonPartialMatch ev av || jpmAny ev rest

end

/-! ### Descriptors (`prost_reflect` catalog) -/

/-- One value of a protobuf enum: symbolic name and numeric value
(`prost_reflect::EnumValueDescriptor`). -/
structure EnumValueDescriptor where
  name : String
  number : Int
  deriving Repr, DecidableEq

/-- `prost_reflect::EnumDescriptor`: the name→number table of an enum. -/
structure EnumDescriptor where
  values : List EnumValueDescriptor
  deriving Repr, DecidableEq

mutual

/-- `prost_reflect::MessageDescriptor`: fully-qualified name plus fields
in declaration order. -/
inductive MessageDescriptor where
  | mk (fullName : String) (fields : List FieldDescriptor)

/-- `prost_reflect::FieldDescriptor`: name, wire field number, kind. -/
inductive FieldDescriptor where
  | mk (name : String) (number : Nat) (kind : Kind)

/-- `prost_reflect::Kind`. Repeated/map cardinalities are not reachable
through `json_to_pbvalue` (it only ever returns singular values), so the
model covers singular fields. -/
inductive Kind where
  | bool | int32 | sint32 | sfixed32 | int64 | sint64 | sfixed64
  | uint32 | fixed32 | uint64 | fixed64 | float | double
  | string | bytes
  | message (m : MessageDescriptor)
  | enum (e : EnumDescriptor)

end

def MessageDescriptor.fullName : MessageDescriptor → String
  | .mk n _ => n

def MessageDescriptor.fields : MessageDescriptor → List FieldDescriptor
  | .mk _ fs => fs

def FieldDescriptor.name : FieldDescriptor → String
  | .mk n _ _ => n

def FieldDescriptor.number : FieldDescriptor → Nat
  | .mk _ n _ => n

def FieldDescriptor.kind : FieldDescriptor → Kind
  | .mk _ _ k => k

/-- `Kind::as_enum` (src/broker.rs uses it during normalization). -/
def Kind.asEnum : Kind → Option EnumDescriptor
  | .enum e => some e
  | _ => none

/-- `Kind::as_message`. -/
def Kind.asMessage : Kind → Option MessageDescriptor
  | .message m => some m
  | _ => none

/-- `prost_reflect::DescriptorPool`: the immutable catalog; `messages` is
`all_messages()` in catalog iteration order. -/
structure DescriptorPool where
  messages : List MessageDescriptor

/-- `MessageDescriptor::get_field_by_name`. -/
def getFieldByName (d : MessageDescriptor) (k : String) : Option FieldDescriptor :=
  d.fields.find? (fun f => f.name == k)

/-- `MessageDescriptor::get_field` (lookup by number, used by the binary
decoder). -/
def getFieldByNumber (d : MessageDescriptor) (n : Nat) : Option FieldDescriptor :=
  d.fields.find? (fun f => f.number == n)

/-- `EnumDescriptor::get_value_by_name` (also the
`values().find(|v| v.name() == s)` loop of the broker's normalization). -/
def getEnumValueByName (e : EnumDescriptor) (s : String) : Option EnumValueDescriptor :=
  e.values.find? (fun v => v.name == s)

/-- `DescriptorPool::get_message_by_name`: exact fully-qualified lookup. -/
def get_message_by_name (pool : DescriptorPool) (name : String) :
    Option MessageDescriptor :=
  pool.messages.find? (fun m => m.fullName == name)

/-- Characters after the last `'.'` (helper for `shortNameOf`). -/
def lastSegAux : List Char → List Char → List Char
  | [], acc => acc.reverse
  | c :: rest, acc =>
      if c = '.' then lastSegAux rest [] else lastSegAux rest (c :: acc)

/-- Last dot-delimited segment of a fully-qualified name
(`full_name().rsplit('.').next()`). -/
def shortNameOf (s : String) : String := String.mk (lastSegAux s.toList [])

/-- `ProtoDyn::message_desc` (src/proto_dyn.rs:31-45): exact
fully-qualified match first, else the first catalog entry whose short
name equals `name`, else "message {name} not found". -/
def message_desc (pool : DescriptorPool) (name : String) :
    Except String MessageDescriptor :=
  match get_message_by_name pool name with
  | some m => .ok m
  | none =>
      match pool.messages.find? (fun m => shortNameOf m.fullName == name) with
      | some m => .ok m
      | none => .error ("message " ++ name ++ " not found")

/-! ### Dynamic values (`prost_reflect::Value`, `DynamicMessage`) -/

mutual

/-- `prost_reflect::Value`, singular kinds. `f32`/`f64` carry the 4/8-byte
bit pattern as a `Nat` (`< 2^32` / `< 2^64`); the claims never interpret
float bits numerically. -/
inductive PbValue where
  | bool (b : Bool)
  | i32 (n : Int)
  | i64 (n : Int)
  | u32 (n : Nat)
  | u64 (n : Nat)
  | f32 (bits : Nat)
  | f64 (bits : Nat)
  | str (s : String)
  | bytes (bs : List Nat)
  | message (m : DynMessage)
  | enumNumber (n : Int)

/-- `prost_reflect::DynamicMessage`: descriptor plus the present fields.
The library keeps fields in a map keyed by field number and serializes
them in ascending number order; the model stores them as an association
list sorted strictly by field number. -/
inductive DynMessage where
  | mk (desc : MessageDescriptor) (fields : List (FieldDescriptor × PbValue))

end

def DynMessage.desc : DynMessage → MessageDescriptor
  | .mk d _ => d

def DynMessage.fields : DynMessage → List (FieldDescriptor × PbValue)
  | .mk _ fs => fs

/-- Insert a field value keeping the store sorted by field number,
replacing any existing entry with the same number (the map-insert the
library performs for `DynamicMessage::set_field`). -/
def insertField (f : FieldDescriptor) (v : PbValue) :
    List (FieldDescriptor × PbValue) → List (FieldDescriptor × PbValue)
  | [] => [(f, v)]
  | (g, w) :: rest =>
      if f.number < g.number then (f, v) :: (g, w) :: rest
      else if f.number = g.number then (f, v) :: rest
      else (g, w) :: insertField f v rest

/-- `DynamicMessage::set_field`. -/
def DynMessage.setField : DynMessage → FieldDescriptor → PbValue → DynMessage
  | .mk d fs, f, v => .mk d (insertField f v fs)

/-- Stored-field lookup by field number (the raw field-map entry). -/
def findStored (fields : List (FieldDescriptor × PbValue)) (n : Nat) : Option PbValue :=
  match fields with
  | [] => none
  | (g, w) :: rest => if g.number = n then some w else findStored rest n

/-- The kind's proto3 default value.  `prost_reflect` treats a stored
implicit-presence (plain proto3) field whose value equals the default as
unset: `has_field` is false and `encode_to_vec` skips it.  A singular
message field has explicit presence, so it is never "default" once
stored. -/
def PbValue.isDefault : PbValue → Bool
  | .bool b => !b
  | .i32 n => n == 0
  | .i64 n => n == 0
  | .u32 n => n == 0
  | .u64 n => n == 0
  | .f32 bits => bits == 0
  | .f64 bits => bits == 0
  | .str s => s == ""
  | .bytes bs => bs.isEmpty
  | .message _ => false
  | .enumNumber n => n == 0

/-- `Value::as_bool`. -/
def Json.asBool : Json → Option Bool
  | .bool b => some b
  | _ => none

/-- `Value::as_i64`: numbers representable as `i64`. -/
def Json.asI64 : Json → Option Int
  | .num n => if -(2 ^ 63) ≤ n ∧ n < 2 ^ 63 then some n else none
  | _ => none

/-- `Value::as_u64`: numbers representable as `u64`. -/
def Json.asU64 : Json → Option Nat
  | .num n => if 0 ≤ n ∧ n < 2 ^ 64 then some n.toNat else none
  | _ => none

/-- `Value::as_f64` on the integral numbers of the model. -/
def Json.asF64 : Json → Option Int
  | .num n => some n
  | _ => none

/-- `Value::as_str`. -/
def Json.asStr : Json → Option String
  | .str s => some s
  | _ => none

/-! ### Integer width conversions (Rust `as` casts) -/

/-- Rust `as i32` on an `i64`: two's-complement truncation to 32 bits. -/
def toI32 (n : Int) : Int := (n + 2 ^ 31) % 2 ^ 32 - 2 ^ 31

/-- Rust `as u32` on a `u64`: truncation modulo `2^32`. -/
def toU32 (n : Nat) : Nat := n % 2 ^ 32

/-- Abstraction of `as f32` applied to an `as_f64` result: some 32-bit
pattern determined by the numeric value.  No claim depends on which
pattern; only totality and the 32-bit width matter. -/
def f32OfNum (n : Int) : Nat := (n % 2 ^ 32).toNat

/-- Abstraction of the `f64` bit pattern of an `as_f64` result. -/
def f64OfNum (n : Int) : Nat := (n % 2 ^ 64).toNat

/-! ### Base64 (`base64::engine::general_purpose::STANDARD`)

Standard alphabet, encoding always padded, decoding requires canonical
padding and zero trailing bits (the defaults of the engine the source
uses). -/

/-- Alphabet character of a sextet. -/
def b64CharOf (n : Nat) : Char :=
  if n < 26 then Char.ofNat (65 + n)
  else if n < 52 then Char.ofNat (97 + (n - 26))
  else if n < 62 then Char.ofNat (48 + (n - 52))
  else if n = 62 then '+'
  else '/'

/-- Sextet of an alphabet character, `none` outside the alphabet. -/
def b64ValOf (c : Char) : Option Nat :=
  if 'A' ≤ c ∧ c ≤ 'Z' then some (c.toNat - 65)
  else if 'a' ≤ c ∧ c ≤ 'z' then some (c.toNat - 97 + 26)
  else if '0' ≤ c ∧ c ≤ '9' then some (c.toNat - 48 + 52)
  else if c = '+' then some 62
  else if c = '/' then some 63
  else none

/-- Padded base64 encoding of a byte list, three bytes per quantum. -/
def b64EncodeList : List Nat → List Char
  | a :: b :: c :: rest =>
      b64CharOf (a / 4) :: b64CharOf ((a % 4) * 16 + b / 16) ::
      b64CharOf ((b % 16) * 4 + c / 64) :: b64CharOf (c % 64) :: b64EncodeList rest
  | [a, b] =>
      [b64CharOf (a / 4), b64CharOf ((a % 4) * 16 + b / 16), b64CharOf ((b % 16) * 4), '=']
  | [a] =>
      [b64CharOf (a / 4), b64CharOf ((a % 4) * 16), '=', '=']
  | [] => []

/-- Canonical base64 decoding: four characters per quantum, `=` padding
only in the final quantum, non-canonical trailing bits rejected. -/
def b64DecodeList : List Char → Except String (List Nat)
  | [] => .ok []
  | c1 :: c2 :: c3 :: c4 :: rest =>
      match b64ValOf c1, b64ValOf c2 with
      | some v1, some v2 =>
          if rest.isEmpty then
            if c3 = '=' ∧ c4 = '=' then
              if v2 % 16 = 0 then .ok [v1 * 4 + v2 / 16] else .error "bytes must be base64"
            else if c4 = '=' then
              match b64ValOf c3 with
              | some v3 =>
                  if v3 % 4 = 0 then .ok [v1 * 4 + v2 / 16, (v2 % 16) * 16 + v3 / 4]
                  else .error "bytes must be base64"
              | none => .error "bytes must be base64"
            else
              match b64ValOf c3, b64ValOf c4 with
              | some v3, some v4 =>
                  .ok [v1 * 4 + v2 / 16, (v2 % 16) * 16 + v3 / 4, (v3 % 4) * 64 + v4]
              | _, _ => .error "bytes must be base64"
          else
            match b64ValOf c3, b64ValOf c4 with
            | some v3, some v4 =>
                match b64DecodeList rest with
                | .ok tail =>
                    .ok ([v1 * 4 + v2 / 16, (v2 % 16) * 16 + v3 / 4, (v3 % 4) * 64 + v4] ++ tail)
                | .error e => .error e
            | _, _ => .error "bytes must be base64"
      | _, _ => .error "bytes must be base64"
  | _ => .error "bytes must be base64"

/-- `STANDARD.decode` on a string. -/
def b64Decode (s : String) : Except String (List Nat) := b64DecodeList s.toList

/-- `STANDARD.encode` of a byte list. -/
def b64Encode (bs : List Nat) : String := String.mk (b64EncodeList bs)

/-! ### `json_to_pbvalue` (src/proto_dyn.rs:79-116)

The nested-message arm iterates the entries of a JSON object, setting
each named field; that loop is the mutual helper `jtpObj`. -/

mutual

def json_to_pbvalue (kind : Kind) (v : Json) : Except String PbValue :=
  match kind with
  | .bool =>
      match v.asBool with
      | some b => .ok (.bool b)
      | none => .error "expected bool"
  | .int32 | .sint32 | .sfixed32 =>
      match v.asI64 with
      | some n => .ok (.i32 (toI32 n))
      | none => .error "expected i32"
  | .int64 | .sint64 | .sfixed64 =>
      match v.asI64 with
      | some n => .ok (.i64 n)
      | none => .error "expected i64"
  | .uint32 | .fixed32 =>
      match v.asU64 with
      | some n => .ok (.u32 (toU32 n))
      | none => .error "expected u32"
  | .uint64 | .fixed64 =>
      match v.asU64 with
      | some n => .ok (.u64 n)
      | none => .error "expected u64"
  | .float =>
      match v.asF64 with
      | some n => .ok (.f32 (f32OfNum n))
      | none => .error "expected f32"
  | .double =>
      match v.asF64 with
      | some n => .ok (.f64 (f64OfNum n))
      | none => .error "expected f64"
  | .string =>
      match v.asStr with
      | some s => .ok (.str s)
      | none => .error "expected string"
  | .bytes =>
      match v.asStr with
      | some s =>
          match b64Decode s with
          | .ok bs => .ok (.bytes bs)
          | .error _ => .error "bytes must be base64"
      | none => .error "expected base64 string for bytes"
  | .message m =>
      match v with
      | .obj entries =>
          match jtpObj m entries (DynMessage.mk m []) with
          | .ok dm => .ok (.message dm)
          | .error e => .error e
      | _ => .error "expected object"
  | .enum e =>
      match v.asStr with
      | some s =>
          match getEnumValueByName e s with
          | some ev => .ok (.enumNumber ev.number)
          | none => .error ("unknown enum " ++ s)
      | none =>
          match v.asI64 with
          | some i => .ok (.enumNumber (toI32 i))
          | none => .error "enum must be string or int"

def jtpObj (m : MessageDescriptor) :
    List (String × Json) → DynMessage → Except String DynMessage
  | [], acc => .ok acc
  | (k, vv) :: rest, acc =>
      match getFieldByName m k with
      | none => .error ("unknown field " ++ k)
      | some f =>
          match json_to_pbvalue f.kind vv with
          | .ok val => jtpObj m rest (acc.setField f val)
          | .error e => .error e

end

/-- Field loop of `ProtoDyn::build_from_json`: per key, look up the field
(unknown key → "unknown field {k} for {name}"), convert, set. -/
def buildFields (name : String) (desc : MessageDescriptor) :
    List (String × Json) → DynMessage → Except String DynMessage
  | [], acc => .ok acc
  | (k, v) :: rest, acc =>
      match getFieldByName desc k with
      | some f =>
          match json_to_pbvalue f.kind v with
          | .ok val => buildFields name desc rest (acc.setField f val)
          | .error e => .error e
      | none => .error ("unknown field " ++ k ++ " for " ++ name)

/-- `ProtoDyn::build_from_json` (src/proto_dyn.rs:47-61).  A non-object
body produces an empty message without error. -/
def build_from_json (pool : DescriptorPool) (name : String) (json : Json) :
    Except String DynMessage :=
  match message_desc pool name with
  | .error e => .error e
  | .ok desc =>
      match json with
      | .obj map => buildFields name desc map (DynMessage.mk desc [])
      | _ => .ok (DynMessage.mk desc [])

/-! ### `dynamic_to_json` / `pbvalue_to_json` (src/proto_dyn.rs:118-152)

`dynamic_to_json` iterates the descriptor's fields in declaration order
and emits the fields for which `msg.has_field(&f)` holds: the field is
stored and, being an implicit-presence (plain proto3) field, its value
differs from the kind's default (`PbValue.isDefault`); a stored message
field (explicit presence) is always emitted.  `json!(f32)` on a float
value is abstracted (`floatJson32`); no claim relates float leaves to
integral JSON numbers.  `Value::List` / `Value::Map` are unreachable
from `json_to_pbvalue` and are not modelled. -/

/-- Abstraction of `json!` applied to an `f32` bit pattern. -/
def floatJson32 (bits : Nat) : Json := .num bits

/-- Abstraction of `json!` applied to an `f64` bit pattern. -/
def floatJson64 (bits : Nat) : Json := .num bits

/-- First JSON image stored under a field number. -/
def lookupNum (avail : List (Nat × Json)) (n : Nat) : Option Json :=
  match avail with
  | [] => none
  | (m, j) :: rest => if m = n then some j else lookupNum rest n

/-- Emit, in descriptor declaration order, the fields the message has
set. -/
def selectFields (dfs : List FieldDescriptor) (avail : List (Nat × Json)) :
    List (String × Json) :=
  match dfs with
  | [] => []
  | f :: rest =>
      match lookupNum avail f.number with
      | some j => (f.name, j) :: selectFields rest avail
      | none => selectFields rest avail

mutual

def pbvalue_to_json : PbValue → Json
  | .bool b => .bool b
  | .i32 n => .num n
  | .i64 n => .num n
  | .u32 n => .num n
  | .u64 n => .num n
  | .f32 bits => floatJson32 bits
  | .f64 bits => floatJson64 bits
  | .str s => .str s
  | .bytes bs => .str (b64Encode bs)
  | .message m => dynamic_to_json m
  | .enumNumber n => .num n

/-- `dynamic_to_json`, with the per-field JSON conversions of the stored
values computed by the structurally recursive `storedJsons` and the
descriptor-order iteration done by the non-recursive `selectFields`
below (the composition is extensionally the source's single loop over
`descriptor().fields()` guarded by `has_field`). -/
def dynamic_to_json : DynMessage → Json
  | .mk (.mk _ dfs) fields => .obj (selectFields dfs (storedJsons fields))

/-- JSON image of every present (`has_field`) field, keyed by field
number: a stored default-valued implicit-presence field is skipped. -/
def storedJsons : List (FieldDescriptor × PbValue) → List (Nat × Json)
  | [] => []
  | (f, v) :: rest =>
      if v.isDefault then storedJsons rest
      else (f.number, pbvalue_to_json v) :: storedJsons rest

end

/-- `ProtoDyn::to_json_value`. -/
def to_json_value (m : DynMessage) : Json := dynamic_to_json m

/-! ### Binary wire format (`prost` encoding as driven by
`DynamicMessage::encode_to_vec` / `merge`)

The byte stream is a `List Nat`.  Scalar payloads are genuine bytes
(`< 256`); string payloads are carried at one code point per entry (see
the module comment). -/

/-- Little-endian base-128 varint digits; structurally recursive on a
fuel that `varint` instantiates with `n + 1`, which always suffices
(the argument shrinks strictly each step), so the zero-fuel arm is
unreachable. -/
def varintAux : Nat → Nat → List Nat
  | 0, _ => []
  | fuel + 1, n => if n < 128 then [n] else (n % 128 + 128) :: varintAux fuel (n / 128)

/-- Little-endian base-128 varint of a natural number. -/
def varint (n : Nat) : List Nat := varintAux (n + 1) n

/-- Two's-complement image of an integer in 64 bits (protobuf varint
encoding of `int32`/`int64`/enum values sign-extends to 64 bits). -/
def twos64 (n : Int) : Nat := (n % 2 ^ 64).toNat

/-- Two's-complement image of an integer in 32 bits. -/
def twos32 (n : Int) : Nat := (n % 2 ^ 32).toNat

/-- Signed value of a 32-bit two's-complement pattern. -/
def unTwos32 (u : Nat) : Int :=
  if u % 2 ^ 32 < 2 ^ 31 then (u % 2 ^ 32 : Nat) else (u % 2 ^ 32 : Nat) - 2 ^ 32

/-- Signed value of a 64-bit two's-complement pattern. -/
def unTwos64 (u : Nat) : Int :=
  if u % 2 ^ 64 < 2 ^ 63 then (u % 2 ^ 64 : Nat) else (u % 2 ^ 64 : Nat) - 2 ^ 64

/-- Zigzag image of a 32-bit signed value. -/
def zigzag32 (n : Int) : Nat := if 0 ≤ n then (2 * n).toNat else (-2 * n - 1).toNat

/-- Zigzag image of a 64-bit signed value. -/
def zigzag64 (n : Int) : Nat := if 0 ≤ n then (2 * n).toNat else (-2 * n - 1).toNat

/-- Inverse zigzag on 32 bits. -/
def unZigzag32 (z : Nat) : Int :=
  let z := z % 2 ^ 32
  if z % 2 = 0 then (z / 2 : Nat) else -((z + 1 : Nat) / 2 : Nat)

/-- Inverse zigzag on 64 bits. -/
def unZigzag64 (z : Nat) : Int :=
  let z := z % 2 ^ 64
  if z % 2 = 0 then (z / 2 : Nat) else -((z + 1 : Nat) / 2 : Nat)

/-- Four little-endian bytes of a 32-bit value. -/
def le4 (n : Nat) : List Nat :=
  [n % 256, n / 256 % 256, n / 256 ^ 2 % 256, n / 256 ^ 3 % 256]

/-- Eight little-endian bytes of a 64-bit value. -/
def le8 (n : Nat) : List Nat :=
  [n % 256, n / 256 % 256, n / 256 ^ 2 % 256, n / 256 ^ 3 % 256,
   n / 256 ^ 4 % 256, n / 256 ^ 5 % 256, n / 256 ^ 6 % 256, n / 256 ^ 7 % 256]

/-- Protobuf wire type of a field kind: 0 varint, 1 64-bit, 2
length-delimited, 5 32-bit. -/
def wireType : Kind → Nat
  | .bool | .int32 | .sint32 | .int64 | .sint64
  | .uint32 | .uint64 | .enum _ => 0
  | .sfixed64 | .fixed64 | .double => 1
  | .string | .bytes | .message _ => 2
  | .sfixed32 | .fixed32 | .float => 5

/-- Code points of a string (the model's "bytes" of a string payload). -/
def strBytes (s : String) : List Nat := s.toList.map Char.toNat

/-- Length-delimited payload: varint length, then the payload. -/
def lenDelim (bs : List Nat) : List Nat := varint bs.length ++ bs

mutual

/-- Wire encoding of one field value of the given kind.  The catch-all
arm (kind/value constructor mismatch) is unreachable for messages built
by `build_from_json` or decoded from the wire. -/
def encodeFieldValue : Kind → PbValue → List Nat
  | .bool, .bool b => varint (if b then 1 else 0)
  | .int32, .i32 n => varint (twos64 n)
  | .sint32, .i32 n => varint (zigzag32 n)
  | .sfixed32, .i32 n => le4 (twos32 n)
  | .int64, .i64 n => varint (twos64 n)
  | .sint64, .i64 n => varint (zigzag64 n)
  | .sfixed64, .i64 n => le8 (twos64 n)
  | .uint32, .u32 n => varint n
  | .fixed32, .u32 n => le4 n
  | .uint64, .u64 n => varint n
  | .fixed64, .u64 n => le8 n
  | .float, .f32 bits => le4 bits
  | .double, .f64 bits => le8 bits
  | .string, .str s => lenDelim (strBytes s)
  | .bytes, .bytes bs => lenDelim bs
  | .message _, .message m => lenDelim (encMessage m)
  | .enum _, .enumNumber n => varint (twos64 n)
  | _, _ => []

/-- Wire encoding of a message: fields in ascending field-number order
(the store is sorted), each as tag (number ≪ 3 | wire type) plus
payload. -/
def encMessage : DynMessage → List Nat
  | .mk _ fields => encFields fields

/-- Per-field encode loop: a stored implicit-presence field whose value
equals the kind's default is skipped (`prost` writes nothing for a plain
proto3 field at its default; message fields, which have explicit
presence, are always written once stored). -/
def encFields : List (FieldDescriptor × PbValue) → List Nat
  | [] => []
  | (f, v) :: rest =>
      if v.isDefault then encFields rest
      else
        varint (f.number * 8 + wireType f.kind) ++ encodeFieldValue f.kind v ++
          encFields rest

end

/-- `ProtoDyn::encode_message` (src/proto_dyn.rs:70-72): infallible
serialization. -/
def encode_message (m : DynMessage) : List Nat := encMessage m

/-! ### Binary wire parsing (`DynamicMessage::merge`)

A fuel-indexed recursive-descent parser; `decode_message` supplies fuel
`bytes.length + 1`, which is always sufficient (each recursive step
consumes at least one byte of the original stream).  Parse failures use
the error text "merge failed", the context string the source attaches to
any `merge` error. -/

/-- Parse one little-endian base-128 varint. -/
def parseVarint : List Nat → Except String (Nat × List Nat)
  | [] => .error "merge failed"
  | b :: rest =>
      if b < 128 then .ok (b, rest)
      else
        match parseVarint rest with
        | .ok (n, r) => .ok (n * 128 + (b - 128), r)
        | .error e => .error e

/-- Split off exactly `n` leading bytes. -/
def takeBytes (n : Nat) (bs : List Nat) : Except String (List Nat × List Nat) :=
  if n ≤ bs.length then .ok (bs.take n, bs.drop n) else .error "merge failed"

/-- Value of four little-endian bytes. -/
def fromLE4 : List Nat → Nat
  | [a, b, c, d] => a + b * 256 + c * 256 ^ 2 + d * 256 ^ 3
  | _ => 0

/-- Value of eight little-endian bytes. -/
def fromLE8 : List Nat → Nat
  | [a, b, c, d, e, f, g, h] =>
      a + b * 256 + c * 256 ^ 2 + d * 256 ^ 3 + e * 256 ^ 4 + f * 256 ^ 5 +
      g * 256 ^ 6 + h * 256 ^ 7
  | _ => 0

/-- Rebuild a string from the model's code-point payload; rejects entries
that are not scalar values (the stand-in for the UTF-8 validation the
library performs on string fields). -/
def bytesToStr (bs : List Nat) : Except String String :=
  if h : ∀ b ∈ bs, Nat.isValidChar b then
    .ok (String.mk (bs.attach.map (fun b => Char.ofNat b.1)))
  else .error "merge failed"

/-- Skip an unknown field's payload according to its wire type. -/
def skipField (wt : Nat) (bs : List Nat) : Except String (List Nat) :=
  if wt = 0 then
    match parseVarint bs with
    | .ok (_, r) => .ok r
    | .error e => .error e
  else if wt = 1 then
    match takeBytes 8 bs with
    | .ok (_, r) => .ok r
    | .error e => .error e
  else if wt = 2 then
    match parseVarint bs with
    | .ok (len, r) =>
        match takeBytes len r with
        | .ok (_, r') => .ok r'
        | .error e => .error e
    | .error e => .error e
  else if wt = 5 then
    match takeBytes 4 bs with
    | .ok (_, r) => .ok r
    | .error e => .error e
  else .error "merge failed"

mutual

/-- Parse the payload of one field of the given kind (wire type already
checked by the caller).  Destructures the fuel so that the mutual
recursion with `mergeFields` is structural on it; `decode_message`'s
fuel supply keeps the zero-fuel arm unreachable. -/
def parseFieldValue : Nat → Kind → List Nat →
    Except String (PbValue × List Nat)
  | 0, _, _ => .error "merge failed"
  | fuel + 1, k, bs =>
  match k with
  | .bool =>
      match parseVarint bs with
      | .ok (n, r) => .ok (.bool (n ≠ 0), r)
      | .error e => .error e
  | .int32 =>
      match parseVarint bs with
      | .ok (n, r) => .ok (.i32 (unTwos32 n), r)
      | .error e => .error e
  | .sint32 =>
      match parseVarint bs with
      | .ok (n, r) => .ok (.i32 (unZigzag32 n), r)
      | .error e => .error e
  | .sfixed32 =>
      match takeBytes 4 bs with
      | .ok (w, r) => .ok (.i32 (unTwos32 (fromLE4 w)), r)
      | .error e => .error e
  | .int64 =>
      match parseVarint bs with
      | .ok (n, r) => .ok (.i64 (unTwos64 n), r)
      | .error e => .error e
  | .sint64 =>
      match parseVarint bs with
      | .ok (n, r) => .ok (.i64 (unZigzag64 n), r)
      | .error e => .error e
  | .sfixed64 =>
      match takeBytes 8 bs with
      | .ok (w, r) => .ok (.i64 (unTwos64 (fromLE8 w)), r)
      | .error e => .error e
  | .uint32 =>
      match parseVarint bs with
      | .ok (n, r) => .ok (.u32 (n % 2 ^ 32), r)
      | .error e => .error e
  | .fixed32 =>
      match takeBytes 4 bs with
      | .ok (w, r) => .ok (.u32 (fromLE4 w), r)
      | .error e => .error e
  | .uint64 =>
      match parseVarint bs with
      | .ok (n, r) => .ok (.u64 (n % 2 ^ 64), r)
      | .error e => .error e
  | .fixed64 =>
      match takeBytes 8 bs with
      | .ok (w, r) => .ok (.u64 (fromLE8 w), r)
      | .error e => .error e
  | .float =>
      match takeBytes 4 bs with
      | .ok (w, r) => .ok (.f32 (fromLE4 w), r)
      | .error e => .error e
  | .double =>
      match takeBytes 8 bs with
      | .ok (w, r) => .ok (.f64 (fromLE8 w), r)
      | .error e => .error e
  | .string =>
      match parseVarint bs with
      | .ok (len, r) =>
          match takeBytes len r with
          | .ok (payload, r') =>
              match bytesToStr payload with
              | .ok s => .ok (.str s, r')
              | .error e => .error e
          | .error e => .error e
      | .error e => .error e
  | .bytes =>
      match parseVarint bs with
      | .ok (len, r) =>
          match takeBytes len r with
          | .ok (payload, r') => .ok (.bytes payload, r')
          | .error e => .error e
      | .error e => .error e
  | .message m =>
      match parseVarint bs with
      | .ok (len, r) =>
          match takeBytes len r with
          | .ok (payload, r') =>
              match mergeFields fuel m [] payload with
              | .ok fields => .ok (.message (DynMessage.mk m fields), r')
              | .error e => .error e
          | .error e => .error e
      | .error e => .error e
  | .enum _ =>
      match parseVarint bs with
      | .ok (n, r) => .ok (.enumNumber (unTwos32 n), r)
      | .error e => .error e

/-- Field loop of `merge`: read tag, resolve the field by number, check
the wire type, parse the payload, set the field (last occurrence wins);
unknown field numbers are skipped by wire type. -/
def mergeFields (fuel : Nat) (desc : MessageDescriptor)
    (acc : List (FieldDescriptor × PbValue)) (bs : List Nat) :
    Except String (List (FieldDescriptor × PbValue)) :=
  match fuel with
  | 0 => .error "merge failed"
  | fuel + 1 =>
      match bs with
      | [] => .ok acc
      | _ =>
          match parseVarint bs with
          | .ok (tag, rest) =>
              let num := tag / 8
              let wt := tag % 8
              match getFieldByNumber desc num with
              | some f =>
                  if wt = wireType f.kind then
                    match parseFieldValue fuel f.kind rest with
                    | .ok (v, rest') => mergeFields fuel desc (insertField f v acc) rest'
                    | .error e => .error e
                  else .error "merge failed"
              | none =>
                  match skipField wt rest with
                  | .ok rest' => mergeFields fuel desc acc rest'
                  | .error e => .error e
          | .error e => .error e

end

/-- `ProtoDyn::decode_message` (src/proto_dyn.rs:63-68): resolve the
descriptor, then merge the bytes into a fresh message. -/
def decode_message (pool : DescriptorPool) (name : String) (bs : List Nat) :
    Except String DynMessage :=
  match message_desc pool name with
  | .error e => .error e
  | .ok desc =>
      match mergeFields (bs.length + 1) desc [] bs with
      | .ok fields => .ok (.mk desc fields)
      | .error e => .error e

/-! ### Presence normalization

What survives a trip through `encode_to_vec` / `merge`: the encoder
writes exactly the fields `has_field` reports, so the decoded store is
the original store with its default-valued implicit-presence fields
dropped, recursively in nested messages. -/

mutual

/-- A message's observable (presence-filtered) content. -/
def normMsg : DynMessage → DynMessage
  | .mk d fields => .mk d (normFields fields)

def normFields :
    List (FieldDescriptor × PbValue) → List (FieldDescriptor × PbValue)
  | [] => []
  | (f, v) :: rest =>
      if v.isDefault then normFields rest
      else (f, normValue v) :: normFields rest

def normValue : PbValue → PbValue
  | .message dm => .message (normMsg dm)
  | v => v

end

/-! ### Broker (`src/broker.rs`) -/

/-- Per-key step of `Broker::normalize_json_for_comparison`
(src/broker.rs:99-128): a top-level key whose field resolves to an enum
kind and whose value is a string is replaced by the number the enum
table resolves it to; a name missing from the table, a non-string value,
a nested-message field, any other kind, and a key with no field all pass
through unchanged. -/
def normalizeEntry (desc : MessageDescriptor) (key : String) (value : Json) : Json :=
  match desc.fields.find? (fun f => f.name == key) with
  | some fd =>
      match fd.kind.asEnum with
      | some ed =>
          match value with
          | .str enumName =>
              match ed.values.find? (fun v => v.name == enumName) with
              | some ev => .num ev.number
              | none => value
          | _ => value
      | none =>
          match fd.kind.asMessage with
          | some _ => value
          | none => value
  | none => value

/-- `Broker::normalize_json_for_comparison` (src/broker.rs:95-134).  The
Rust signature returns `Result`, but every path returns `Ok`; the model
is the total function. -/
def normalize_json_for_comparison (expected : Json) (dm : DynMessage) : Json :=
  match expected with
  | .obj map => .obj (map.map (fun kv => (kv.1, normalizeEntry dm.desc kv.1 kv.2)))
  | e => e

/-- `Broker::send_message` (src/broker.rs:45-51): build, encode, then
publish `[topic, payload]`.  The second component is the list of
multipart messages that reach the channel: empty on failure (the send
happens after both fallible steps), a single `[topic, payload]` pair on
success. -/
def send_message (pool : DescriptorPool) (name : String) (body : Json) :
    Except String Unit × List (List (List Nat)) :=
  match build_from_json pool name body with
  | .error e => (.error e, [])
  | .ok dm => (.ok (), [[strBytes name, encode_message dm]])

/-- One outcome of `sub_sock.recv_multipart` inside the `expect_message`
loop: a multipart message, the `EAGAIN` timeout, or another transport
error. -/
inductive RecvEvent where
  | msg (parts : List (List Nat))
  | timeout
  | transportFail (detail : String)

/-- The errors `expect_message` can surface, as structured values: the
`anyhow` text "timeout waiting for {name}" carries the awaited type
name; the transport error is the receive error wrapped in the context
"recv_multipart failed" and carries no type name. -/
inductive ExpectError where
  | timeout (typeName : String)
  | transport (detail : String)
  deriving Repr, DecidableEq

/-- `String::from_utf8_lossy`, faithful on scalar-per-entry payloads
(every topic the program uses is ASCII); entries that are not valid
scalars are replaced. -/
def utf8Lossy (bs : List Nat) : String :=
  String.mk (bs.map (fun b => if h : Nat.isValidChar b then Char.ofNat b else '?'))

/-- `Broker::expect_message` (src/broker.rs:55-92) over an explicit
finite trace of receive outcomes: `none` means the loop is still waiting
when the trace ends.  Mirrors the loop body order: frame-count check,
decode by `"company.project.v1." ++ topic`, topic check, expectation
normalization, partial match. -/
def expect_message (pool : DescriptorPool) (name : String) (expected : Json) :
    List RecvEvent → Option (Except ExpectError Json)
  | [] => none
  | .timeout :: _ => some (.error (.timeout name))
  | .transportFail d :: _ =>
      some (.error (.transport ("recv_multipart failed: " ++ d)))
  | .msg parts :: rest =>
      if parts.length ≠ 2 then expect_message pool name expected rest
      else
        let topic := utf8Lossy (parts.getD 0 [])
        let payload := parts.getD 1 []
        let msgName := "company.project.v1." ++ topic
        match decode_message pool msgName payload with
        | .error _ => expect_message pool name expected rest
        | .ok dm =>
            let gotJson := to_json_value dm
            if topic ≠ name then expect_message pool name expected rest
            else
              let normalized := normalize_json_for_comparison expected dm
              if jsonPartialMatch normalized gotJson then some (.ok gotJson)
              else expect_message pool name expected rest

/-! ### Well-formedness and validity predicates

Spec-side predicates used to state the round-trip claims: real
descriptor pools have pairwise-distinct field numbers inside every
message (protoc rejects duplicates), and messages produced by
`build_from_json` or `decode_message` store values whose constructor and
range match their field's kind. -/

mutual

/-- Field numbers are pairwise distinct in this message and in every
nested message type. -/
def wfDesc : MessageDescriptor → Bool
  | .mk _ dfs => decide ((dfs.map (fun f => f.number)).Nodup) && wfFieldList dfs

def wfFieldList : List FieldDescriptor → Bool
  | [] => true
  | .mk _ _ k :: rest => wfKind k && wfFieldList rest

def wfKind : Kind → Bool
  | .message m => wfDesc m
  | .enum e =>
      e.values.all (fun ev => decide (-(2 ^ 31) ≤ ev.number ∧ ev.number < 2 ^ 31))
  | _ => true

end

/-- Every message type of the catalog is well formed. -/
def wfPool (pool : DescriptorPool) : Bool :=
  pool.messages.all wfDesc

/-- The field store is strictly ascending in field number. -/
def storeSorted (fields : List (FieldDescriptor × PbValue)) : Prop :=
  List.Pairwise (fun a b => a.1.number < b.1.number) fields

mutual

/-- The value matches the kind: right constructor, value within the
declared width (float bit patterns within 32/64 bits), nested messages
recursively valid against their own descriptor. -/
def validValue : Kind → PbValue → Prop
  | .bool, .bool _ => True
  | .int32, .i32 n => -(2 ^ 31) ≤ n ∧ n < 2 ^ 31
  | .sint32, .i32 n => -(2 ^ 31) ≤ n ∧ n < 2 ^ 31
  | .sfixed32, .i32 n => -(2 ^ 31) ≤ n ∧ n < 2 ^ 31
  | .int64, .i64 n => -(2 ^ 63) ≤ n ∧ n < 2 ^ 63
  | .sint64, .i64 n => -(2 ^ 63) ≤ n ∧ n < 2 ^ 63
  | .sfixed64, .i64 n => -(2 ^ 63) ≤ n ∧ n < 2 ^ 63
  | .uint32, .u32 n => n < 2 ^ 32
  | .fixed32, .u32 n => n < 2 ^ 32
  | .uint64, .u64 n => n < 2 ^ 64
  | .fixed64, .u64 n => n < 2 ^ 64
  | .float, .f32 bits => bits < 2 ^ 32
  | .double, .f64 bits => bits < 2 ^ 64
  | .string, .str _ => True
  | .bytes, .bytes _ => True
  | .message m, .message dm => dm.desc = m ∧ validMsg dm
  | .enum _, .enumNumber n => -(2 ^ 31) ≤ n ∧ n < 2 ^ 31
  | _, _ => False

/-- Stored fields are sorted by number and each stored descriptor is the
one its number resolves to, with a kind-valid value. -/
def validMsg : DynMessage → Prop
  | .mk desc fields => storeSorted fields ∧ validStored desc fields

def validStored (desc : MessageDescriptor) :
    List (FieldDescriptor × PbValue) → Prop
  | [] => True
  | (f, v) :: rest =>
      getFieldByNumber desc f.number = some f ∧ validValue f.kind v ∧
      validStored desc rest

end

/-- `b64Decode` succeeds. -/
def b64Ok (s : String) : Bool :=
  match b64Decode s with
  | .ok _ => true
  | .error _ => false

mutual

/-- Textual documents for which the amended textual round-trip claim is
stated: only schema-defined fields with pairwise-distinct keys, leaf
values of the JSON type and range their field's kind declares, enums
numeric and in `i32` range, bytes canonical non-empty base64; float and
double fields are excluded (`as f32`/`as f64` narrowing is not re-read
exactly), and so is each kind's proto3 default value, which an
implicit-presence field does not re-emit (`has_field` is false on it). -/
def textOk : Kind → Json → Bool
  | .bool, .bool b => b
  | .int32, .num n => decide (-(2 ^ 31) ≤ n ∧ n < 2 ^ 31 ∧ n ≠ 0)
  | .sint32, .num n => decide (-(2 ^ 31) ≤ n ∧ n < 2 ^ 31 ∧ n ≠ 0)
  | .sfixed32, .num n => decide (-(2 ^ 31) ≤ n ∧ n < 2 ^ 31 ∧ n ≠ 0)
  | .int64, .num n => decide (-(2 ^ 63) ≤ n ∧ n < 2 ^ 63 ∧ n ≠ 0)
  | .sint64, .num n => decide (-(2 ^ 63) ≤ n ∧ n < 2 ^ 63 ∧ n ≠ 0)
  | .sfixed64, .num n => decide (-(2 ^ 63) ≤ n ∧ n < 2 ^ 63 ∧ n ≠ 0)
  | .uint32, .num n => decide (0 < n ∧ n < 2 ^ 32)
  | .fixed32, .num n => decide (0 < n ∧ n < 2 ^ 32)
  | .uint64, .num n => decide (0 < n ∧ n < 2 ^ 64)
  | .fixed64, .num n => decide (0 < n ∧ n < 2 ^ 64)
  | .string, .str s => !(s == "")
  | .bytes, .str s =>
      (match b64Decode s with
       | .ok (_ :: _) => true
       | _ => false)
  | .enum _, .num n => decide (-(2 ^ 31) ≤ n ∧ n < 2 ^ 31 ∧ n ≠ 0)
  | .message m, .obj entries =>
      decide ((entries.map Prod.fst).Nodup) && textOkEntries m entries
  | _, _ => false

def textOkEntries (m : MessageDescriptor) : List (String × Json) → Bool
  | [] => true
  | (k, v) :: rest =>
      (match getFieldByName m k with
       | some f => textOk f.kind v
       | none => false) && textOkEntries m rest

end

/-! ### JSON equivalence (`serde_json::Value::eq` in full)

serde object equality is key-set based (iteration order irrelevant);
on objects with pairwise-distinct keys — the only objects the program
ever compares — it coincides with this lookup-based equivalence. -/

mutual

def jsonEqv : Json → Json → Bool
  | .obj a, .obj b => a.length == b.length && jeqFields a b
  | .arr a, .arr b => jeqList a b
  | x, y => Json.beq x y

def jeqFields : List (String × Json) → List (String × Json) → Bool
  | [], _ => true
  | (k, v) :: rest, b =>
      (match jlookup b k with
       | some w => jsonEqv v w
       | none => false) && jeqFields rest b

def jeqList : List Json → List Json → Bool
  | [], [] => true
  | x :: xs, y :: ys => jsonEqv x y && jeqList xs ys
  | _, _ => false

end

/-! ## Theorems -/

/-! ### Helper lemmas -/

mutual

theorem Json.beq_iff : ∀ a b : Json, Json.beq a b = true ↔ a = b
  | .null, b => by cases b <;> simp [Json.beq]
  | .bool x, b => by cases b <;> simp [Json.beq]
  | .num x, b => by cases b <;> simp [Json.beq]
  | .str x, b => by cases b <;> simp [Json.beq]
  | .arr xs, b => by
      cases b <;> simp [Json.beq]
      exact Json.beqList_iff xs _
  | .obj xs, b => by
      cases b <;> simp [Json.beq]
      exact Json.beqFields_iff xs _

theorem Json.beqList_iff : ∀ a b : List Json, Json.beqList a b = true ↔ a = b
  | [], b => by cases b <;> simp [Json.beqList]
  | x :: xs, b => by
      cases b with
      | nil => simp [Json.beqList]
      | cons y ys =>
          simp only [Json.beqList, Bool.and_eq_true, List.cons.injEq]
          exact and_congr (Json.beq_iff x y) (Json.beqList_iff xs ys)

theorem Json.beqFields_iff :
    ∀ a b : List (String × Json), Json.beqFields a b = true ↔ a = b
  | [], b => by cases b <;> simp [Json.beqFields]
  | (k, x) :: xs, b => by
      cases b with
      | nil => simp [Json.beqFields]
      | cons y ys =>
          obtain ⟨k', v⟩ := y
          simp only [Json.beqFields, Bool.and_eq_true, List.cons.injEq, Prod.mk.injEq,
            beq_iff_eq]
          rw [Json.beq_iff x v, Json.beqFields_iff xs ys, and_assoc]

end

theorem jpmFields_iff (eo ao : List (String × Json)) :
    jpmFields eo ao = true ↔
      ∀ kv ∈ eo, ∃ av, jlookup ao kv.1 = some av ∧ jsonPartialMatch kv.2 av = true := by
  induction eo with
  | nil => simp [jpmFields]
  | cons kv rest ih =>
      obtain ⟨k, ev⟩ := kv
      simp only [jpmFields, Bool.and_eq_true, ih, List.mem_cons]
      constructor
      · rintro ⟨h1, h2⟩ p hp
        rcases hp with rfl | hp
        · rcases hcase : jlookup ao k with _ | av
          · rw [hcase] at h1; exact absurd h1 (by simp)
          · rw [hcase] at h1; exact ⟨av, rfl, h1⟩
        · exact h2 p hp
      · intro h
        refine ⟨?_, fun p hp => h p (Or.inr hp)⟩
        obtain ⟨av, hav, hm⟩ := h (k, ev) (Or.inl rfl)
        simp only at hav
        rw [hav]
        exact hm

theorem jpmAny_iff (ev : Json) (aa : List Json) :
    jpmAny ev aa = true ↔ ∃ av ∈ aa, jsonPartialMatch ev av = true := by
  induction aa with
  | nil => simp [jpmAny]
  | cons av rest ih => simp [jpmAny, ih]

theorem jpmList_iff (ea aa : List Json) :
    jpmList ea aa = true ↔
      ∀ ev ∈ ea, ∃ av ∈ aa, jsonPartialMatch ev av = true := by
  induction ea with
  | nil => simp [jpmList]
  | cons ev rest ih => simp [jpmList, ih, jpmAny_iff]

theorem toI32_range (n : Int) : -(2 ^ 31) ≤ toI32 n ∧ toI32 n < 2 ^ 31 := by
  unfold toI32
  omega

theorem toI32_eq_self {n : Int} (h1 : -(2 ^ 31) ≤ n) (h2 : n < 2 ^ 31) :
    toI32 n = n := by
  unfold toI32
  omega

/-- `List.find?` returns the first元素?? -/
theorem find?_first {α : Type} (p : α → Bool) (l : List α)
    (h : ∃ a ∈ l, p a = true) :
    ∃ i, ∃ hi : i < l.length,
      l.find? p = some (l.get ⟨i, hi⟩) ∧ p (l.get ⟨i, hi⟩) = true ∧
      ∀ j (hj : j < i), p (l.get ⟨j, by omega⟩) = false := by
  induction l with
  | nil => simp at h
  | cons x rest ih =>
      by_cases hx : p x = true
      · exact ⟨0, by simp, by simp [List.find?, hx], by simpa using hx, by omega⟩
      · have hx' : p x = false := by simpa using hx
        have hrest : ∃ a ∈ rest, p a = true := by
          obtain ⟨a, ha, hpa⟩ := h
          rcases List.mem_cons.mp ha with rfl | ha
          · exact absurd hpa hx
          · exact ⟨a, ha, hpa⟩
        obtain ⟨i, hi, hfind, hp, hfirst⟩ := ih hrest
        refine ⟨i + 1, by simpa using hi, ?_, by simpa using hp, ?_⟩
        · simpa [List.find?, hx'] using hfind
        · intro j hj
          match j with
          | 0 => simpa using hx'
          | j + 1 => simpa using hfirst j (by omega)

/-! ### Claim C1 -/

/-- C1: `partial_match` is structural subset equality.  For two JSON
objects it holds iff every expected key is present in the actual object
with a recursively partial-matching value (extra actual keys ignored);
for two sequences it holds iff every expected element partial-matches at
least one actual element (purely existential, so the same actual element
may serve several expected ones); for every other pair of values it
holds iff the two values are exactly equal. -/
theorem c1_partial_match_subset_equality :
    (∀ eo ao, jsonPartialMatch (.obj eo) (.obj ao) = true ↔
        ∀ kv ∈ eo, ∃ av, jlookup ao kv.1 = some av ∧
          jsonPartialMatch kv.2 av = true)
    ∧ (∀ ea aa, jsonPartialMatch (.arr ea) (.arr aa) = true ↔
        ∀ ev ∈ ea, ∃ av ∈ aa, jsonPartialMatch ev av = true)
    ∧ (∀ e a : Json, (∀ eo ao, ¬(e = .obj eo ∧ a = .obj ao)) →
        (∀ ea aa, ¬(e = .arr ea ∧ a = .arr aa)) →
        (jsonPartialMatch e a = true ↔ e = a)) := by
  refine ⟨?_, ?_, ?_⟩
  · intro eo ao
    have h : jsonPartialMatch (.obj eo) (.obj ao) = jpmFields eo ao := by
      simp [jsonPartialMatch]
    rw [h]
    exact jpmFields_iff eo ao
  · intro ea aa
    have h : jsonPartialMatch (.arr ea) (.arr aa) = jpmList ea aa := by
      simp [jsonPartialMatch]
    rw [h]
    exact jpmList_iff ea aa
  · intro e a h1 h2
    cases e <;> cases a <;>
      first
        | exact absurd ⟨rfl, rfl⟩ (h1 _ _)
        | exact absurd ⟨rfl, rfl⟩ (h2 _ _)
        | simp [jsonPartialMatch, Json.beq, Json.beq_iff, Json.beqList_iff,
            Json.beqFields_iff]

/-- Witness for C1: the scalar arm applied at a concrete input. -/
theorem c1_partial_match_subset_equality_witness :
    jsonPartialMatch (.num 1) (.num 1) = true ↔ (Json.num 1 = Json.num 1) :=
  c1_partial_match_subset_equality.2.2 (.num 1) (.num 1)
    (by intro eo ao h; exact absurd h.1 (by simp))
    (by intro ea aa h; exact absurd h.1 (by simp))

/-! ### Claim C9 -/

/-- C9: type-name resolution returns the exact fully-qualified match
when one exists; otherwise the first schema, in catalog iteration order,
whose short name (last dot-delimited segment) equals the name; and a
"message {name} not found" error when neither exists. -/
theorem c9_message_desc_resolution (pool : DescriptorPool) (name : String) :
    ((∃ m ∈ pool.messages, m.fullName = name) →
      ∃ i, ∃ hi : i < pool.messages.length,
        message_desc pool name = .ok (pool.messages.get ⟨i, hi⟩) ∧
        (pool.messages.get ⟨i, hi⟩).fullName = name ∧
        ∀ j (hj : j < i), (pool.messages.get ⟨j, by omega⟩).fullName ≠ name)
    ∧ ((∀ m ∈ pool.messages, m.fullName ≠ name) →
       (∃ m ∈ pool.messages, shortNameOf m.fullName = name) →
      ∃ i, ∃ hi : i < pool.messages.length,
        message_desc pool name = .ok (pool.messages.get ⟨i, hi⟩) ∧
        shortNameOf (pool.messages.get ⟨i, hi⟩).fullName = name ∧
        ∀ j (hj : j < i),
          shortNameOf (pool.messages.get ⟨j, by omega⟩).fullName ≠ name)
    ∧ ((∀ m ∈ pool.messages,
          m.fullName ≠ name ∧ shortNameOf m.fullName ≠ name) →
        message_desc pool name = .error ("message " ++ name ++ " not found")) := by
  refine ⟨?_, ?_, ?_⟩
  · intro h
    obtain ⟨i, hi, hfind, hp, hfirst⟩ :=
      find?_first (fun m => m.fullName == name) pool.messages
        (by obtain ⟨m, hm, he⟩ := h; exact ⟨m, hm, by simpa using he⟩)
    refine ⟨i, hi, ?_, by simpa using hp, fun j hj => by simpa using hfirst j hj⟩
    simp [message_desc, get_message_by_name, hfind]
  · intro hnone h
    have hfq : pool.messages.find? (fun m => m.fullName == name) = none := by
      rw [List.find?_eq_none]
      intro m hm
      simpa using hnone m hm
    obtain ⟨i, hi, hfind, hp, hfirst⟩ :=
      find?_first (fun m => shortNameOf m.fullName == name) pool.messages
        (by obtain ⟨m, hm, he⟩ := h; exact ⟨m, hm, by simpa using he⟩)
    refine ⟨i, hi, ?_, by simpa using hp, fun j hj => by simpa using hfirst j hj⟩
    simp [message_desc, get_message_by_name, hfq, hfind]
  · intro h
    have hfq : pool.messages.find? (fun m => m.fullName == name) = none := by
      rw [List.find?_eq_none]
      intro m hm
      simpa using (h m hm).1
    have hs : pool.messages.find? (fun m => shortNameOf m.fullName == name) = none := by
      rw [List.find?_eq_none]
      intro m hm
      simpa using (h m hm).2
    simp [message_desc, get_message_by_name, hfq, hs]

/-- Witness for C9: on a two-entry catalog sharing the short name
"Ping", resolving "Ping" picks the first entry in catalog order. -/
theorem c9_message_desc_resolution_witness :
    ∃ i, ∃ hi : i < ([MessageDescriptor.mk "a.Ping" [], MessageDescriptor.mk "b.Ping" []] : List MessageDescriptor).length,
      message_desc ⟨[MessageDescriptor.mk "a.Ping" [], MessageDescriptor.mk "b.Ping" []]⟩ "Ping" =
        .ok (([MessageDescriptor.mk "a.Ping" [], MessageDescriptor.mk "b.Ping" []] : List MessageDescriptor).get ⟨i, hi⟩) ∧
      shortNameOf (([MessageDescriptor.mk "a.Ping" [], MessageDescriptor.mk "b.Ping" []] : List MessageDescriptor).get ⟨i, hi⟩).fullName = "Ping" ∧
      ∀ j (hj : j < i),
        shortNameOf (([MessageDescriptor.mk "a.Ping" [], MessageDescriptor.mk "b.Ping" []] : List MessageDescriptor).get ⟨j, by omega⟩).fullName ≠ "Ping" :=
  (c9_message_desc_resolution ⟨[MessageDescriptor.mk "a.Ping" [], MessageDescriptor.mk "b.Ping" []]⟩ "Ping").2.1
    (by decide) ⟨MessageDescriptor.mk "a.Ping" [], List.mem_cons_self _ _, by decide⟩

/-! ### Claim C10 -/

/-- C10: during `expect`, a received multipart message that does not
consist of exactly two frames is silently discarded — the loop continues
on the remaining trace and no error is surfaced for it. -/
theorem c10_malformed_frame_count_skipped (pool : DescriptorPool)
    (name : String) (expected : Json) (parts : List (List Nat))
    (rest : List RecvEvent) (h : parts.length ≠ 2) :
    expect_message pool name expected (.msg parts :: rest) =
      expect_message pool name expected rest := by
  simp [expect_message, h]

/-- Witness for C10: a one-frame message is skipped and the empty
remaining trace leaves the loop waiting. -/
theorem c10_malformed_frame_count_skipped_witness :
    ([[]] : List (List Nat)).length ≠ 2 ∧
    expect_message ⟨[]⟩ "Ping" .null [.msg [[]]] =
      expect_message ⟨[]⟩ "Ping" .null [] :=
  ⟨by decide, c10_malformed_frame_count_skipped ⟨[]⟩ "Ping" .null [[]] [] (by decide)⟩

/-! ### Claim C3 -/

/-- C3: expectation normalization is shallow and non-failing.  The
normalized expectation is an object with the same keys in the same
order, each value rewritten by the per-key step; a top-level key whose
field is an enumeration and whose value is a string found in the enum
table becomes the resolved number; a string missing from the table stays
unchanged (no error — the model is a total function, matching the Rust
whose `Result` is `Ok` on every path); non-string values, non-enum
fields (including nested-message fields, which are not recursed into)
and keys without a field pass through unchanged; a non-object
expectation is returned unchanged. -/
theorem c3_normalization_shallow_nonfailing (dm : DynMessage) :
    (∀ map, normalize_json_for_comparison (.obj map) dm =
      .obj (map.map fun kv => (kv.1, normalizeEntry dm.desc kv.1 kv.2)))
    ∧ (∀ k s f ed ev,
        getFieldByName dm.desc k = some f → f.kind.asEnum = some ed →
        getEnumValueByName ed s = some ev →
        normalizeEntry dm.desc k (.str s) = .num ev.number)
    ∧ (∀ k s f ed,
        getFieldByName dm.desc k = some f → f.kind.asEnum = some ed →
        getEnumValueByName ed s = none →
        normalizeEntry dm.desc k (.str s) = .str s)
    ∧ (∀ k v f ed, getFieldByName dm.desc k = some f → f.kind.asEnum = some ed →
        v.asStr = none → normalizeEntry dm.desc k v = v)
    ∧ (∀ k v f, getFieldByName dm.desc k = some f → f.kind.asEnum = none →
        normalizeEntry dm.desc k v = v)
    ∧ (∀ k v, getFieldByName dm.desc k = none → normalizeEntry dm.desc k v = v)
    ∧ (∀ e : Json, (∀ map, e ≠ .obj map) → normalize_json_for_comparison e dm = e) := by
  refine ⟨?_, ?_, ?_, ?_, ?_, ?_, ?_⟩
  · intro map
    cases map with
    | nil => simp [normalize_json_for_comparison]
    | cons kv rest => simp [normalize_json_for_comparison]
  · intro k s f ed ev hf he hv
    simp only [getFieldByName] at hf
    simp only [getEnumValueByName] at hv
    simp [normalizeEntry, hf, he, hv]
  · intro k s f ed hf he hv
    simp only [getFieldByName] at hf
    simp only [getEnumValueByName] at hv
    simp [normalizeEntry, hf, he, hv]
  · intro k v f ed hf he hs
    simp only [getFieldByName] at hf
    cases v <;> simp_all [normalizeEntry, Json.asStr]
  · intro k v f hf he
    simp only [getFieldByName] at hf
    rcases hm : f.kind.asMessage with _ | m <;> simp [normalizeEntry, hf, he, hm]
  · intro k v hf
    simp only [getFieldByName] at hf
    simp [normalizeEntry, hf]
  · intro e he
    cases e <;> first
      | exact absurd rfl (he _)
      | simp [normalize_json_for_comparison]

/-- Witness for C3: on a message whose schema has enum field `status`
with `"OK" = 0`, normalizing `{"status": "OK"}` yields `{"status": 0}`,
and the result partial-matches a decoded message whose `status` is `0`
(the spec's enum-normalization law). -/
theorem c3_normalization_shallow_nonfailing_witness :
    normalize_json_for_comparison (.obj [("status", .str "OK")])
        (.mk (.mk "company.project.v1.Pong"
          [.mk "status" 1 (.enum ⟨[⟨"OK", 0⟩, ⟨"FAIL", 1⟩]⟩)]) []) =
      .obj [("status", .num 0)] ∧
    jsonPartialMatch (.obj [("status", .num 0)])
      (.obj [("status", .num 0), ("seq", .num 7)]) = true := by
  constructor
  · have h := (c3_normalization_shallow_nonfailing
      (.mk (.mk "company.project.v1.Pong"
        [.mk "status" 1 (.enum ⟨[⟨"OK", 0⟩, ⟨"FAIL", 1⟩]⟩)]) [])).1
      [("status", .str "OK")]
    rw [h]
    have h2 := (c3_normalization_shallow_nonfailing
      (.mk (.mk "company.project.v1.Pong"
        [.mk "status" 1 (.enum ⟨[⟨"OK", 0⟩, ⟨"FAIL", 1⟩]⟩)]) [])).2.1
      "status" "OK" (.mk "status" 1 (.enum ⟨[⟨"OK", 0⟩, ⟨"FAIL", 1⟩]⟩))
      ⟨[⟨"OK", 0⟩, ⟨"FAIL", 1⟩]⟩ ⟨"OK", 0⟩
      (by simp [getFieldByName, DynMessage.desc, MessageDescriptor.fields,
        List.find?, FieldDescriptor.name])
      (by simp [FieldDescriptor.kind, Kind.asEnum])
      (by simp [getEnumValueByName, List.find?])
    simp only [List.map]
    rw [h2]
  · simp [jsonPartialMatch, jpmFields, jlookup, Json.beq]

/-! ### Claim C7 (corrected) -/

/-- Counterexample to C7 as stated: a raw integer on an enum field is
not taken "as-is" — `2147483648` (which `as_i64` accepts) is wrapped by
the `as i32` cast to `-2147483648` before being stored. -/
theorem c7_counterexample_enum_int_not_as_is :
    json_to_pbvalue (.enum ⟨[⟨"OK", 0⟩]⟩) (.num 2147483648) =
      .ok (.enumNumber (-2147483648)) ∧
    json_to_pbvalue (.enum ⟨[⟨"OK", 0⟩]⟩) (.num 2147483648) ≠
      .ok (.enumNumber 2147483648) := by
  constructor
  · simp [json_to_pbvalue, Json.asStr, Json.asI64, toI32]
  · simp [json_to_pbvalue, Json.asStr, Json.asI64, toI32]

/-- C7 amended: for every enumeration field, `build_from_text` resolves
a symbolic string name through the enum's name→number table, fails with
the `UnknownEnumValue` error "unknown enum {s}" when the name is not in
the table, and accepts a raw integer without checking it against the
enum's declared values, truncating it to 32-bit two's complement (the
identity on values within `i32` range). -/
theorem c7_enum_field_conversion (e : EnumDescriptor) :
    (∀ s ev, getEnumValueByName e s = some ev →
      json_to_pbvalue (.enum e) (.str s) = .ok (.enumNumber ev.number))
    ∧ (∀ s, getEnumValueByName e s = none →
      json_to_pbvalue (.enum e) (.str s) = .error ("unknown enum " ++ s))
    ∧ (∀ i : Int, -(2 ^ 63) ≤ i → i < 2 ^ 63 →
      json_to_pbvalue (.enum e) (.num i) = .ok (.enumNumber (toI32 i)))
    ∧ (∀ i : Int, -(2 ^ 31) ≤ i → i < 2 ^ 31 →
      json_to_pbvalue (.enum e) (.num i) = .ok (.enumNumber i)) := by
  refine ⟨?_, ?_, ?_, ?_⟩
  · intro s ev hv
    simp [json_to_pbvalue, Json.asStr, hv]
  · intro s hv
    simp [json_to_pbvalue, Json.asStr, hv]
  · intro i h1 h2
    have hr : -9223372036854775808 ≤ i ∧ i < 9223372036854775808 := by
      constructor <;> omega
    simp [json_to_pbvalue, Json.asStr, Json.asI64, hr]
  · intro i h1 h2
    have hr : -9223372036854775808 ≤ i ∧ i < 9223372036854775808 := by
      constructor <;> omega
    have ht : toI32 i = i := toI32_eq_self h1 h2
    simp [json_to_pbvalue, Json.asStr, Json.asI64, hr, ht]

/-- Witness for C7 (amended): symbolic `"OK"` resolves to `0`, unknown
`"NOPE"` errors, and `1` is accepted as `1`. -/
theorem c7_enum_field_conversion_witness :
    json_to_pbvalue (.enum ⟨[⟨"OK", 0⟩]⟩) (.str "OK") = .ok (.enumNumber 0) ∧
    json_to_pbvalue (.enum ⟨[⟨"OK", 0⟩]⟩) (.str "NOPE") =
      .error ("unknown enum " ++ "NOPE") ∧
    json_to_pbvalue (.enum ⟨[⟨"OK", 0⟩]⟩) (.num 1) = .ok (.enumNumber 1) :=
  ⟨(c7_enum_field_conversion ⟨[⟨"OK", 0⟩]⟩).1 "OK" ⟨"OK", 0⟩
      (by simp [getEnumValueByName, List.find?]),
   (c7_enum_field_conversion ⟨[⟨"OK", 0⟩]⟩).2.1 "NOPE"
      (by simp [getEnumValueByName, List.find?]),
   (c7_enum_field_conversion ⟨[⟨"OK", 0⟩]⟩).2.2.2 1 (by norm_num) (by norm_num)⟩

/-! ### Claim C8 (corrected) -/

/-- Counterexample to C8 as stated: `4294967296` does not fit an `int32`
field, yet `build_from_text` succeeds (with the value wrapped to `0`)
instead of failing with `TypeMismatch`. -/
theorem c8_counterexample_out_of_range_accepted :
    json_to_pbvalue .int32 (.num 4294967296) = .ok (.i32 0) := by
  simp [json_to_pbvalue, Json.asI64, toI32]

/-- C8 amended: for boolean, integer and float fields `build_from_text`
type-checks the JSON type of the leaf (wrong type → the kind's
`TypeMismatch` error "expected …"; a negative number on an unsigned
field or a number outside `i64`/`u64` is likewise rejected) and
converts accepted numbers to the field's declared width by
two's-complement truncation — an in-`i64`-range value wider than a 32-bit
field is silently wrapped, not rejected. -/
theorem c8_scalar_field_conversion :
    (∀ v : Json, v.asBool = none → json_to_pbvalue .bool v = .error "expected bool")
    ∧ (∀ b, json_to_pbvalue .bool (.bool b) = .ok (.bool b))
    ∧ (∀ v : Json, v.asI64 = none → json_to_pbvalue .int32 v = .error "expected i32")
    ∧ (∀ n : Int, -(2 ^ 63) ≤ n → n < 2 ^ 63 →
        json_to_pbvalue .int32 (.num n) = .ok (.i32 (toI32 n)))
    ∧ (∀ v : Json, v.asI64 = none → json_to_pbvalue .int64 v = .error "expected i64")
    ∧ (∀ n : Int, -(2 ^ 63) ≤ n → n < 2 ^ 63 →
        json_to_pbvalue .int64 (.num n) = .ok (.i64 n))
    ∧ (∀ v : Json, v.asU64 = none → json_to_pbvalue .uint32 v = .error "expected u32")
    ∧ (∀ n : Int, 0 ≤ n → n < 2 ^ 64 →
        json_to_pbvalue .uint32 (.num n) = .ok (.u32 (toU32 n.toNat)))
    ∧ (∀ v : Json, v.asU64 = none → json_to_pbvalue .uint64 v = .error "expected u64")
    ∧ (∀ n : Int, 0 ≤ n → n < 2 ^ 64 →
        json_to_pbvalue .uint64 (.num n) = .ok (.u64 n.toNat))
    ∧ (∀ v : Json, v.asF64 = none → json_to_pbvalue .float v = .error "expected f32")
    ∧ (∀ v : Json, v.asF64 = none → json_to_pbvalue .double v = .error "expected f64") := by
  refine ⟨?_, ?_, ?_, ?_, ?_, ?_, ?_, ?_, ?_, ?_, ?_, ?_⟩
  · intro v hv; simp [json_to_pbvalue, hv]
  · intro b; simp [json_to_pbvalue, Json.asBool]
  · intro v hv; simp [json_to_pbvalue, hv]
  · intro n h1 h2
    have hr : -9223372036854775808 ≤ n ∧ n < 9223372036854775808 := by
      constructor <;> omega
    simp [json_to_pbvalue, Json.asI64, hr]
  · intro v hv; simp [json_to_pbvalue, hv]
  · intro n h1 h2
    have hr : -9223372036854775808 ≤ n ∧ n < 9223372036854775808 := by
      constructor <;> omega
    simp [json_to_pbvalue, Json.asI64, hr]
  · intro v hv; simp [json_to_pbvalue, hv]
  · intro n h1 h2
    have hr : (0 : Int) ≤ n ∧ n < 18446744073709551616 := by
      constructor <;> omega
    simp [json_to_pbvalue, Json.asU64, hr]
  · intro v hv; simp [json_to_pbvalue, hv]
  · intro n h1 h2
    have hr : (0 : Int) ≤ n ∧ n < 18446744073709551616 := by
      constructor <;> omega
    simp [json_to_pbvalue, Json.asU64, hr]
  · intro v hv; simp [json_to_pbvalue, hv]
  · intro v hv; simp [json_to_pbvalue, hv]

/-- Witness for C8 (amended): a string on an `int32` field is a
`TypeMismatch`; `7` on an `int32` field converts to `7`. -/
theorem c8_scalar_field_conversion_witness :
    json_to_pbvalue .int32 (.str "x") = .error "expected i32" ∧
    json_to_pbvalue .int32 (.num 7) = .ok (.i32 (toI32 7)) :=
  ⟨c8_scalar_field_conversion.2.2.1 (.str "x") (by simp [Json.asI64]),
   c8_scalar_field_conversion.2.2.2.1 7 (by norm_num) (by norm_num)⟩

/-! ### Claim C5 (corrected) -/

/-- A successful field loop implies every key resolved to a field. -/
theorem buildFields_ok_keys_known {name : String} {desc : MessageDescriptor} :
    ∀ {entries : List (String × Json)} {acc : DynMessage} {m : DynMessage},
      buildFields name desc entries acc = .ok m →
      ∀ kv ∈ entries, ∃ f, getFieldByName desc kv.1 = some f := by
  intro entries
  induction entries with
  | nil => intro acc m h kv hkv; simp at hkv
  | cons kv0 rest ih =>
      intro acc m h p hp
      obtain ⟨k, v⟩ := kv0
      rcases hf : getFieldByName desc k with _ | f
      · rw [show buildFields name desc ((k, v) :: rest) acc =
          .error ("unknown field " ++ k ++ " for " ++ name) by
            simp [buildFields, hf]] at h
        exact absurd h (by simp)
      · rcases hval : json_to_pbvalue f.kind v with e | val
        · rw [show buildFields name desc ((k, v) :: rest) acc = .error e by
            simp [buildFields, hf, hval]] at h
          exact absurd h (by simp)
        · rw [show buildFields name desc ((k, v) :: rest) acc =
            buildFields name desc rest (acc.setField f val) by
              simp [buildFields, hf, hval]] at h
          rcases List.mem_cons.mp hp with heq | hp'
          · subst heq
            exact ⟨f, by simpa using hf⟩
          · exact ih h p hp' 

/-- If every entry before the first unknown key converts, the loop stops
at exactly the unknown-field error. -/
theorem buildFields_unknown_first {name : String} {desc : MessageDescriptor}
    {k : String} {v : Json} {post : List (String × Json)}
    (hk : getFieldByName desc k = none) :
    ∀ (pre : List (String × Json)) (acc : DynMessage),
      (∀ kv ∈ pre, ∃ f val, getFieldByName desc kv.1 = some f ∧
          json_to_pbvalue f.kind kv.2 = .ok val) →
      buildFields name desc (pre ++ (k, v) :: post) acc =
        .error ("unknown field " ++ k ++ " for " ++ name) := by
  intro pre
  induction pre with
  | nil => intro acc hpre; simp [buildFields, hk]
  | cons kv rest ih =>
      intro acc hpre
      obtain ⟨k', v'⟩ := kv
      obtain ⟨f, val, hf, hval⟩ := hpre (k', v') (List.mem_cons_self _ _)
      simp only [List.cons_append, buildFields, hf, hval]
      exact ih (acc.setField f val) (fun p hp => hpre p (List.mem_cons_of_mem _ hp))

/-- C5 amended: a send body containing a key that names no field of the
resolved schema always fails, and nothing is published; the surfaced
error is `UnknownField` ("unknown field {k} for {name}") whenever every
body entry before the unknown key (in map iteration order) converts
successfully — an earlier entry whose value mismatches its field's kind
preempts it with that error instead. -/
theorem c5_unknown_field_send (pool : DescriptorPool) (name : String)
    (desc : MessageDescriptor) (entries : List (String × Json))
    (hd : message_desc pool name = .ok desc) :
    ((∃ kv ∈ entries, getFieldByName desc kv.1 = none) →
      ∃ e, send_message pool name (.obj entries) = (.error e, []))
    ∧ (∀ pre k v post,
        entries = pre ++ (k, v) :: post →
        getFieldByName desc k = none →
        (∀ kv ∈ pre, ∃ f val, getFieldByName desc kv.1 = some f ∧
            json_to_pbvalue f.kind kv.2 = .ok val) →
        send_message pool name (.obj entries) =
          (.error ("unknown field " ++ k ++ " for " ++ name), [])) := by
  constructor
  · intro hunknown
    rcases hb : buildFields name desc entries (DynMessage.mk desc []) with e | m
    · exact ⟨e, by simp [send_message, build_from_json, hd, hb]⟩
    · obtain ⟨kv, hkv, hnone⟩ := hunknown
      obtain ⟨f, hf⟩ := buildFields_ok_keys_known hb kv hkv
      rw [hnone] at hf
      exact absurd hf (by simp)
  · intro pre k v post hsplit hk hpre
    subst hsplit
    have hb := @buildFields_unknown_first name desc k v post hk pre
      (DynMessage.mk desc []) hpre
    simp [send_message, build_from_json, hd, hb]

/-- Witness for C5 (amended): `{"bogus": 1}` against a schema without
`bogus` fails the send with `UnknownField` and nothing reaches the
channel. -/
theorem c5_unknown_field_send_witness :
    send_message ⟨[.mk "company.project.v1.Ping" [.mk "seq" 1 .int32]]⟩ "Ping"
        (.obj [("bogus", .num 1)]) =
      (.error ("unknown field " ++ "bogus" ++ " for " ++ "Ping"), []) :=
  (c5_unknown_field_send ⟨[.mk "company.project.v1.Ping" [.mk "seq" 1 .int32]]⟩
      "Ping" (.mk "company.project.v1.Ping" [.mk "seq" 1 .int32])
      [("bogus", .num 1)]
      (by rfl)).2
    [] "bogus" (.num 1) [] rfl (by rfl) (by intro kv h; simp at h)

/-- Counterexample to C5 as stated: the body `{"alpha": 5, "zzz": 1}`
contains the unknown key `"zzz"`, but because map iteration reaches
`"alpha"` first and `5` is not a boolean, the send fails with the
`TypeMismatch` error "expected bool", not with `UnknownField` (nothing
is published either way). -/
theorem c5_counterexample_type_mismatch_preempts :
    send_message ⟨[.mk "company.project.v1.Ping" [.mk "alpha" 1 .bool]]⟩ "Ping"
        (.obj [("alpha", .num 5), ("zzz", .num 1)]) =
      (.error "expected bool", []) ∧
    getFieldByName (.mk "company.project.v1.Ping" [.mk "alpha" 1 .bool]) "zzz" =
      none ∧
    ("expected bool" : String) ≠ "unknown field " ++ "zzz" ++ " for " ++ "Ping" := by
  refine ⟨?_, by rfl, by decide⟩
  simp [send_message, build_from_json, message_desc, get_message_by_name,
    List.find?, shortNameOf, lastSegAux, MessageDescriptor.fullName, buildFields,
    getFieldByName, FieldDescriptor.name, FieldDescriptor.kind, json_to_pbvalue,
    Json.asBool]

/-! ### Claim C4 (corrected) -/

/-- Skip equation of the receive loop for a malformed frame count
(shared helper). -/
theorem expect_skip_nontwo (pool : DescriptorPool) (name : String)
    (expected : Json) {parts : List (List Nat)} {rest : List RecvEvent}
    (h : parts.length ≠ 2) :
    expect_message pool name expected (.msg parts :: rest) =
      expect_message pool name expected rest := by
  simp [expect_message, h]

/-- C4 amended: a message whose payload fails to decode against the
schema resolved from its topic is silently discarded and the receive
loop continues; the only errors surfaced from `expect` are the timeout
and the transport-level receive failure; the timeout error carries the
awaited type name, while the transport error carries only the context
"recv_multipart failed" around the underlying transport detail — not
the type name. -/
theorem c4_expect_error_policy (pool : DescriptorPool) (name : String)
    (expected : Json) :
    (∀ (t p : List Nat) (rest : List RecvEvent),
      (∃ e, decode_message pool ("company.project.v1." ++ utf8Lossy t) p =
        .error e) →
      expect_message pool name expected (.msg [t, p] :: rest) =
        expect_message pool name expected rest)
    ∧ (∀ events err,
        expect_message pool name expected events = some (.error err) →
        err = .timeout name ∨
          ∃ d, err = .transport ("recv_multipart failed: " ++ d)) := by
  constructor
  · intro t p rest hdec
    obtain ⟨e, he⟩ := hdec
    simp [expect_message, he]
  · intro events
    induction events with
    | nil => intro err h; simp [expect_message] at h
    | cons ev rest ih =>
        intro err h
        cases ev with
        | timeout =>
            simp [expect_message] at h
            exact Or.inl h.symm
        | transportFail d =>
            simp [expect_message] at h
            exact Or.inr ⟨d, h.symm⟩
        | msg parts =>
            rcases parts with _ | ⟨t, parts1⟩
            · rw [expect_skip_nontwo pool name expected (by simp)] at h
              exact ih err h
            rcases parts1 with _ | ⟨p, parts2⟩
            · rw [expect_skip_nontwo pool name expected (by simp)] at h
              exact ih err h
            rcases parts2 with _ | ⟨x, parts3⟩
            · simp only [expect_message] at h
              rw [if_neg (by simp)] at h
              split at h
              · exact ih err h
              · split at h
                · exact ih err h
                · split at h
                  · exact absurd h (by simp)
                  · exact ih err h
            · rw [expect_skip_nontwo pool name expected
                (by simp only [List.length_cons]; omega)] at h
              exact ih err h

/-- Witness for C4 (amended): a two-frame message carrying the topic
"Ping" and a payload that announces an `int32` varint but ends is
skipped, leaving the loop waiting on the empty remaining trace. -/
theorem c4_expect_error_policy_witness :
    expect_message ⟨[.mk "company.project.v1.Ping" [.mk "seq" 1 .int32]]⟩
        "Ping" .null [.msg [[80, 105, 110, 103], [8]]] =
      expect_message ⟨[.mk "company.project.v1.Ping" [.mk "seq" 1 .int32]]⟩
        "Ping" .null [] :=
  (c4_expect_error_policy ⟨[.mk "company.project.v1.Ping" [.mk "seq" 1 .int32]]⟩
      "Ping" .null).1 [80, 105, 110, 103] [8] [] ⟨"merge failed", by rfl⟩

/-- Counterexample to C4 as stated: the transport failure surfaced from
`expect` does not carry the awaited type name — waiting for "Ping" and
waiting for "Pong" over the same failing trace produce the identical
error value. -/
theorem c4_counterexample_transport_error_lacks_name :
    expect_message ⟨[]⟩ "Ping" .null [.transportFail "EINVAL"] =
      some (.error (.transport ("recv_multipart failed: " ++ "EINVAL"))) ∧
    expect_message ⟨[]⟩ "Pong" .null [.transportFail "EINVAL"] =
      some (.error (.transport ("recv_multipart failed: " ++ "EINVAL"))) := by
  constructor <;> rfl

/-! ### Wire-codec round-trip lemmas -/

theorem twos64_lt (n : Int) : twos64 n < 2 ^ 64 := by
  unfold twos64
  omega

theorem zigzag32_lt {n : Int} (h1 : -(2 ^ 31) ≤ n) (h2 : n < 2 ^ 31) :
    zigzag32 n < 2 ^ 32 := by
  unfold zigzag32
  split <;> omega

theorem zigzag64_lt {n : Int} (h1 : -(2 ^ 63) ≤ n) (h2 : n < 2 ^ 63) :
    zigzag64 n < 2 ^ 64 := by
  unfold zigzag64
  split <;> omega

theorem wfDesc_nodup {d : MessageDescriptor} (h : wfDesc d = true) :
    (d.fields.map (fun f => f.number)).Nodup := by
  obtain ⟨n, dfs⟩ := d
  simp only [wfDesc, Bool.and_eq_true, decide_eq_true_eq] at h
  exact h.1

theorem wfFieldList_mem {dfs : List FieldDescriptor} (h : wfFieldList dfs = true) :
    ∀ f ∈ dfs, wfKind f.kind = true := by
  induction dfs with
  | nil => intro f hf; simp at hf
  | cons g rest ih =>
      obtain ⟨gn, gnum, gk⟩ := g
      simp only [wfFieldList, Bool.and_eq_true] at h
      intro f hf
      rcases List.mem_cons.mp hf with rfl | hf
      · exact h.1
      · exact ih h.2 f hf

theorem wfDesc_kinds {d : MessageDescriptor} (h : wfDesc d = true) :
    ∀ f ∈ d.fields, wfKind f.kind = true := by
  obtain ⟨n, dfs⟩ := d
  simp only [wfDesc, Bool.and_eq_true] at h
  exact wfFieldList_mem h.2

theorem getFieldByName_mem {d : MessageDescriptor} {k : String}
    {f : FieldDescriptor} (h : getFieldByName d k = some f) : f ∈ d.fields :=
  List.mem_of_find?_eq_some h

theorem name_to_number {d : MessageDescriptor} {k : String} {f : FieldDescriptor}
    (hwf : wfDesc d = true) (h : getFieldByName d k = some f) :
    getFieldByNumber d f.number = some f := by
  have hmem : f ∈ d.fields := getFieldByName_mem h
  rcases hg : getFieldByNumber d f.number with _ | g
  · exfalso
    rw [getFieldByNumber, List.find?_eq_none] at hg
    exact hg f hmem (by simp)
  · have hgmem : g ∈ d.fields := List.mem_of_find?_eq_some hg
    have hgnum : g.number = f.number := by
      have := List.find?_some hg
      simpa using this
    have := List.inj_on_of_nodup_map (wfDesc_nodup hwf) hgmem hmem hgnum
    rw [this]

theorem insertField_mem {f : FieldDescriptor} {v : PbValue}
    {store : List (FieldDescriptor × PbValue)} {p : FieldDescriptor × PbValue}
    (h : p ∈ insertField f v store) : p = (f, v) ∨ p ∈ store := by
  induction store with
  | nil => simpa [insertField] using h
  | cons gv rest ih =>
      obtain ⟨g, w⟩ := gv
      by_cases h1 : f.number < g.number
      · simp only [insertField, if_pos h1] at h
        rcases List.mem_cons.mp h with rfl | h
        · exact Or.inl rfl
        · exact Or.inr h
      · by_cases h2 : f.number = g.number
        · simp only [insertField, if_neg h1, if_pos h2] at h
          rcases List.mem_cons.mp h with rfl | h
          · exact Or.inl rfl
          · exact Or.inr (List.mem_cons_of_mem _ h)
        · simp only [insertField, if_neg h1, if_neg h2] at h
          rcases List.mem_cons.mp h with rfl | h
          · exact Or.inr (List.mem_cons_self _ _)
          · rcases ih h with h | h
            · exact Or.inl h
            · exact Or.inr (List.mem_cons_of_mem _ h)

theorem insertField_sorted {f : FieldDescriptor} {v : PbValue}
    {store : List (FieldDescriptor × PbValue)} (hs : storeSorted store) :
    storeSorted (insertField f v store) := by
  induction store with
  | nil => simp [insertField, storeSorted]
  | cons gv rest ih =>
      obtain ⟨g, w⟩ := gv
      rw [storeSorted, List.pairwise_cons] at hs
      obtain ⟨hg, hrest⟩ := hs
      by_cases h1 : f.number < g.number
      · rw [show insertField f v ((g, w) :: rest) = (f, v) :: (g, w) :: rest by
          simp [insertField, h1]]
        rw [storeSorted, List.pairwise_cons]
        constructor
        · intro p hp
          rcases List.mem_cons.mp hp with rfl | hp
          · exact h1
          · have := hg p hp
            simp only at this ⊢
            omega
        · rw [List.pairwise_cons]
          exact ⟨hg, hrest⟩
      · by_cases h2 : f.number = g.number
        · rw [show insertField f v ((g, w) :: rest) = (f, v) :: rest by
            simp [insertField, h1, h2]]
          rw [storeSorted, List.pairwise_cons]
          refine ⟨?_, hrest⟩
          intro p hp
          have := hg p hp
          simp only at this ⊢
          omega
        · rw [show insertField f v ((g, w) :: rest) = (g, w) :: insertField f v rest by
            simp [insertField, h1, h2]]
          rw [storeSorted, List.pairwise_cons]
          constructor
          · intro p hp
            rcases insertField_mem hp with rfl | hp
            · simp only
              omega
            · exact hg p hp
          · exact ih hrest

theorem insertField_validStored {desc : MessageDescriptor} {f : FieldDescriptor}
    {v : PbValue} {store : List (FieldDescriptor × PbValue)}
    (hs : validStored desc store) (hf : getFieldByNumber desc f.number = some f)
    (hv : validValue f.kind v) : validStored desc (insertField f v store) := by
  induction store with
  | nil => exact ⟨hf, hv, trivial⟩
  | cons gv rest ih =>
      obtain ⟨g, w⟩ := gv
      obtain ⟨hg1, hg2, hg3⟩ := hs
      by_cases h1 : f.number < g.number
      · rw [show insertField f v ((g, w) :: rest) = (f, v) :: (g, w) :: rest by
          simp [insertField, h1]]
        exact ⟨hf, hv, hg1, hg2, hg3⟩
      · by_cases h2 : f.number = g.number
        · rw [show insertField f v ((g, w) :: rest) = (f, v) :: rest by
            simp [insertField, h1, h2]]
          exact ⟨hf, hv, hg3⟩
        · rw [show insertField f v ((g, w) :: rest) = (g, w) :: insertField f v rest by
            simp [insertField, h1, h2]]
          exact ⟨hg1, hg2, ih hg3⟩

theorem setField_valid {m : DynMessage} {f : FieldDescriptor} {v : PbValue}
    (hm : validMsg m) (hf : getFieldByNumber m.desc f.number = some f)
    (hv : validValue f.kind v) : validMsg (m.setField f v) := by
  obtain ⟨d, fs⟩ := m
  obtain ⟨hs, hst⟩ := hm
  exact ⟨insertField_sorted hs, insertField_validStored hst hf hv⟩

theorem asI64_bound {v : Json} {n : Int} (h : v.asI64 = some n) :
    -(2 ^ 63) ≤ n ∧ n < 2 ^ 63 := by
  cases v with
  | num i =>
      simp only [Json.asI64] at h
      split at h
      · cases h
        omega
      · exact absurd h (by simp)
  | null => exact absurd h (by simp [Json.asI64])
  | bool b => exact absurd h (by simp [Json.asI64])
  | str s => exact absurd h (by simp [Json.asI64])
  | arr xs => exact absurd h (by simp [Json.asI64])
  | obj fs => exact absurd h (by simp [Json.asI64])

theorem asU64_bound {v : Json} {n : Nat} (h : v.asU64 = some n) : n < 2 ^ 64 := by
  cases v with
  | num i =>
      simp only [Json.asU64] at h
      split at h
      · cases h
        omega
      · exact absurd h (by simp)
  | null => exact absurd h (by simp [Json.asU64])
  | bool b => exact absurd h (by simp [Json.asU64])
  | str s => exact absurd h (by simp [Json.asU64])
  | arr xs => exact absurd h (by simp [Json.asU64])
  | obj fs => exact absurd h (by simp [Json.asU64])

mutual

/-- `json_to_pbvalue` only produces kind-valid values (over well-formed
kinds). -/
theorem jtp_valid (k : Kind) (v : Json) (pv : PbValue) (hwf : wfKind k = true)
    (hok : json_to_pbvalue k v = .ok pv) : validValue k pv := by
  cases k with
  | bool =>
      rcases hb : v.asBool with _ | b <;> simp [json_to_pbvalue, hb] at hok <;>
        simp [← hok, validValue]
  | int32 =>
      rcases hb : v.asI64 with _ | n <;> simp [json_to_pbvalue, hb] at hok
      simp [← hok, validValue, toI32_range n]
      have := toI32_range n
      constructor <;> omega
  | sint32 =>
      rcases hb : v.asI64 with _ | n <;> simp [json_to_pbvalue, hb] at hok
      rw [← hok]
      have := toI32_range n
      exact ⟨this.1, this.2⟩
  | sfixed32 =>
      rcases hb : v.asI64 with _ | n <;> simp [json_to_pbvalue, hb] at hok
      rw [← hok]
      have := toI32_range n
      exact ⟨this.1, this.2⟩
  | int64 =>
      rcases hb : v.asI64 with _ | n <;> simp [json_to_pbvalue, hb] at hok
      rw [← hok]
      exact asI64_bound hb
  | sint64 =>
      rcases hb : v.asI64 with _ | n <;> simp [json_to_pbvalue, hb] at hok
      rw [← hok]
      exact asI64_bound hb
  | sfixed64 =>
      rcases hb : v.asI64 with _ | n <;> simp [json_to_pbvalue, hb] at hok
      rw [← hok]
      exact asI64_bound hb
  | uint32 =>
      rcases hb : v.asU64 with _ | n <;> simp [json_to_pbvalue, hb] at hok
      rw [← hok]
      show toU32 n < 2 ^ 32
      unfold toU32
      omega
  | fixed32 =>
      rcases hb : v.asU64 with _ | n <;> simp [json_to_pbvalue, hb] at hok
      rw [← hok]
      show toU32 n < 2 ^ 32
      unfold toU32
      omega
  | uint64 =>
      rcases hb : v.asU64 with _ | n <;> simp [json_to_pbvalue, hb] at hok
      rw [← hok]
      exact asU64_bound hb
  | fixed64 =>
      rcases hb : v.asU64 with _ | n <;> simp [json_to_pbvalue, hb] at hok
      rw [← hok]
      exact asU64_bound hb
  | float =>
      rcases hb : v.asF64 with _ | n <;> simp [json_to_pbvalue, hb] at hok
      rw [← hok]
      show f32OfNum n < 2 ^ 32
      unfold f32OfNum
      omega
  | double =>
      rcases hb : v.asF64 with _ | n <;> simp [json_to_pbvalue, hb] at hok
      rw [← hok]
      show f64OfNum n < 2 ^ 64
      unfold f64OfNum
      omega
  | string =>
      rcases hb : v.asStr with _ | s <;> simp [json_to_pbvalue, hb] at hok <;>
        simp [← hok, validValue]
  | bytes =>
      rcases hb : v.asStr with _ | s <;> simp [json_to_pbvalue, hb] at hok
      rcases hd : b64Decode s with e | bs <;> rw [hd] at hok <;> simp at hok
      simp [← hok, validValue]
  | message md =>
      cases v with
      | obj entries =>
          simp only [json_to_pbvalue] at hok
          rcases hsub : jtpObj md entries (DynMessage.mk md []) with e | dm <;>
            rw [hsub] at hok <;> simp at hok
          have hres := jtpObj_valid md entries (DynMessage.mk md []) dm
            (by simpa [wfKind] using hwf)
            ⟨rfl, by constructor <;> simp [storeSorted, validStored]⟩ hsub
          rw [← hok]
          exact ⟨hres.1, hres.2⟩
      | null => simp [json_to_pbvalue] at hok
      | bool b => simp [json_to_pbvalue] at hok
      | num n => simp [json_to_pbvalue] at hok
      | str s => simp [json_to_pbvalue] at hok
      | arr xs => simp [json_to_pbvalue] at hok
  | enum ed =>
      rcases hb : v.asStr with _ | s
      · rcases hi : v.asI64 with _ | i <;>
          simp [json_to_pbvalue, hb, hi] at hok
        rw [← hok]
        have := toI32_range i
        exact ⟨this.1, this.2⟩
      · rcases he : getEnumValueByName ed s with _ | ev <;>
          simp [json_to_pbvalue, hb, he] at hok
        rw [← hok]
        show -(2 ^ 31) ≤ ev.number ∧ ev.number < 2 ^ 31
        have hmem : ev ∈ ed.values := List.mem_of_find?_eq_some he
        simp only [wfKind, List.all_eq_true, decide_eq_true_eq] at hwf
        exact hwf ev hmem
termination_by sizeOf v

/-- The nested-object loop of `json_to_pbvalue` preserves message
validity. -/
theorem jtpObj_valid (m : MessageDescriptor) :
    ∀ (entries : List (String × Json)) (acc dm : DynMessage),
      wfDesc m = true → acc.desc = m ∧ validMsg acc →
      jtpObj m entries acc = .ok dm → dm.desc = m ∧ validMsg dm
  | [], acc, dm => by
      intro hwf hacc hok
      simp only [jtpObj] at hok
      cases hok
      exact hacc
  | (k, vv) :: rest, acc, dm => by
      intro hwf hacc hok
      rcases hf : getFieldByName m k with _ | f
      · rw [show jtpObj m ((k, vv) :: rest) acc =
          .error ("unknown field " ++ k) by simp [jtpObj, hf]] at hok
        exact absurd hok (by simp)
      · rcases hval : json_to_pbvalue f.kind vv with e | val
        · rw [show jtpObj m ((k, vv) :: rest) acc = .error e by
            simp [jtpObj, hf, hval]] at hok
          exact absurd hok (by simp)
        · rw [show jtpObj m ((k, vv) :: rest) acc =
            jtpObj m rest (acc.setField f val) by simp [jtpObj, hf, hval]] at hok
          have hkind : wfKind f.kind = true :=
            wfDesc_kinds hwf f (getFieldByName_mem hf)
          have hvv := jtp_valid f.kind vv val hkind hval
          have hnum : getFieldByNumber m f.number = some f := name_to_number hwf hf
          refine jtpObj_valid m rest (acc.setField f val) dm hwf ⟨?_, ?_⟩ hok
          · obtain ⟨d, fs⟩ := acc
            simpa [DynMessage.setField, DynMessage.desc] using hacc.1
          · exact setField_valid hacc.2 (by rw [hacc.1]; exact hnum) hvv
termination_by entries _ _ => sizeOf entries

end

theorem message_desc_mem {pool : DescriptorPool} {name : String}
    {desc : MessageDescriptor} (h : message_desc pool name = .ok desc) :
    desc ∈ pool.messages := by
  unfold message_desc get_message_by_name at h
  rcases h1 : pool.messages.find? (fun m => m.fullName == name) with _ | m
  · rw [h1] at h
    rcases h2 : pool.messages.find? (fun m => shortNameOf m.fullName == name)
        with _ | m
    · rw [h2] at h
      exact absurd h (by simp)
    · rw [h2] at h
      cases h
      exact List.mem_of_find?_eq_some h2
  · rw [h1] at h
    cases h
    exact List.mem_of_find?_eq_some h1

theorem wfPool_desc {pool : DescriptorPool} {desc : MessageDescriptor}
    (hwf : wfPool pool = true) (hmem : desc ∈ pool.messages) :
    wfDesc desc = true := by
  rw [wfPool, List.all_eq_true] at hwf
  exact hwf desc hmem

theorem toNat_le_of_le {a c : Char} (h : a ≤ c) : a.toNat ≤ c.toNat := by
  rw [Char.le_def, UInt32.le_def] at h
  have := BitVec.le_def.mp h
  simpa [Char.toNat] using this

/-- An accepted alphabet character re-encodes to itself. -/
theorem b64CharOf_valOf {c : Char} {v : Nat} (h : b64ValOf c = some v) :
    v < 64 ∧ b64CharOf v = c := by
  unfold b64ValOf at h
  split at h
  · rename_i hc
    have h1 := toNat_le_of_le hc.1
    have h2 := toNat_le_of_le hc.2
    have e1 : ('A' : Char).toNat = 65 := by decide
    have e2 : ('Z' : Char).toNat = 90 := by decide
    rw [e1] at h1
    rw [e2] at h2
    cases h
    refine ⟨by omega, ?_⟩
    unfold b64CharOf
    rw [if_pos (by omega)]
    have : 65 + (c.toNat - 65) = c.toNat := by omega
    rw [this, Char.ofNat_toNat]
  · split at h
    · rename_i hc
      have h1 := toNat_le_of_le hc.1
      have h2 := toNat_le_of_le hc.2
      have e1 : ('a' : Char).toNat = 97 := by decide
      have e2 : ('z' : Char).toNat = 122 := by decide
      rw [e1] at h1
      rw [e2] at h2
      cases h
      refine ⟨by omega, ?_⟩
      unfold b64CharOf
      rw [if_neg (by omega), if_pos (by omega)]
      have : 97 + (c.toNat - 97 + 26 - 26) = c.toNat := by omega
      rw [this, Char.ofNat_toNat]
    · split at h
      · rename_i hc
        have h1 := toNat_le_of_le hc.1
        have h2 := toNat_le_of_le hc.2
        have e1 : ('0' : Char).toNat = 48 := by decide
        have e2 : ('9' : Char).toNat = 57 := by decide
        rw [e1] at h1
        rw [e2] at h2
        cases h
        refine ⟨by omega, ?_⟩
        unfold b64CharOf
        rw [if_neg (by omega), if_neg (by omega), if_pos (by omega)]
        have : 48 + (c.toNat - 48 + 52 - 52) = c.toNat := by omega
        rw [this, Char.ofNat_toNat]
      · split at h
        · rename_i hc
          cases h
          subst hc
          exact ⟨by omega, by decide⟩
        · split at h
          · rename_i hc
            cases h
            subst hc
            exact ⟨by omega, by decide⟩
          · exact absurd h (by simp)

/-- Canonical decoding re-encodes to the original text. -/
theorem b64EncodeList_decodeList :
    ∀ (chars : List Char) (bs : List Nat),
      b64DecodeList chars = .ok bs → b64EncodeList bs = chars
  | [], bs => by
      intro h
      simp only [b64DecodeList] at h
      cases h
      rfl
  | [c1], bs => by
      intro h
      simp only [b64DecodeList] at h
      exact absurd h (by simp)
  | [c1, c2], bs => by
      intro h
      simp only [b64DecodeList] at h
      exact absurd h (by simp)
  | [c1, c2, c3], bs => by
      intro h
      simp only [b64DecodeList] at h
      exact absurd h (by simp)
  | c1 :: c2 :: c3 :: c4 :: rest, bs => by
      intro h
      simp only [b64DecodeList] at h
      rcases h1 : b64ValOf c1 with _ | v1 <;> rw [h1] at h
      · exact absurd h (by simp)
      rcases h2 : b64ValOf c2 with _ | v2 <;> rw [h2] at h
      · exact absurd h (by simp)
      obtain ⟨hv1, hc1⟩ := b64CharOf_valOf h1
      obtain ⟨hv2, hc2⟩ := b64CharOf_valOf h2
      dsimp only at h
      cases rest with
      | nil =>
          rw [if_pos (by simp)] at h
          by_cases hpad2 : c3 = '=' ∧ c4 = '='
          · rw [if_pos hpad2] at h
            by_cases htrail : v2 % 16 = 0
            · rw [if_pos htrail] at h
              cases h
              simp only [b64EncodeList]
              have e1 : (v1 * 4 + v2 / 16) / 4 = v1 := by omega
              have e2 : (v1 * 4 + v2 / 16) % 4 * 16 = v2 := by omega
              rw [e1, e2, hc1, hc2, hpad2.1, hpad2.2]
            · rw [if_neg htrail] at h
              exact absurd h (by simp)
          · rw [if_neg hpad2] at h
            by_cases hpad1 : c4 = '='
            · rw [if_pos hpad1] at h
              rcases h3 : b64ValOf c3 with _ | v3 <;> rw [h3] at h <;>
                try dsimp only at h
              · exact absurd h (by simp)
              obtain ⟨hv3, hc3⟩ := b64CharOf_valOf h3
              by_cases htrail : v3 % 4 = 0
              · rw [if_pos htrail] at h
                cases h
                simp only [b64EncodeList]
                have e1 : (v1 * 4 + v2 / 16) / 4 = v1 := by omega
                have e2 : (v1 * 4 + v2 / 16) % 4 * 16 +
                    (v2 % 16 * 16 + v3 / 4) / 16 = v2 := by omega
                have e3 : (v2 % 16 * 16 + v3 / 4) % 16 * 4 = v3 := by omega
                rw [e1, e2, e3, hc1, hc2, hc3, hpad1]
              · rw [if_neg htrail] at h
                exact absurd h (by simp)
            · rw [if_neg hpad1] at h
              rcases h3 : b64ValOf c3 with _ | v3 <;> rw [h3] at h <;>
                try dsimp only at h
              · exact absurd h (by simp)
              rcases h4 : b64ValOf c4 with _ | v4 <;> rw [h4] at h <;>
                dsimp only at h
              · exact absurd h (by simp)
              obtain ⟨hv3, hc3⟩ := b64CharOf_valOf h3
              obtain ⟨hv4, hc4⟩ := b64CharOf_valOf h4
              cases h
              simp only [b64EncodeList]
              have e1 : (v1 * 4 + v2 / 16) / 4 = v1 := by omega
              have e2 : (v1 * 4 + v2 / 16) % 4 * 16 +
                  (v2 % 16 * 16 + v3 / 4) / 16 = v2 := by omega
              have e3 : (v2 % 16 * 16 + v3 / 4) % 16 * 4 +
                  (v3 % 4 * 64 + v4) / 64 = v3 := by omega
              have e4 : (v3 % 4 * 64 + v4) % 64 = v4 := by omega
              rw [e1, e2, e3, e4, hc1, hc2, hc3, hc4]
      | cons c5 rest' =>
          rw [if_neg (by simp)] at h
          rcases h3 : b64ValOf c3 with _ | v3 <;> rw [h3] at h <;>
            try dsimp only at h
          · exact absurd h (by simp)
          rcases h4 : b64ValOf c4 with _ | v4 <;> rw [h4] at h <;>
            try dsimp only at h
          · exact absurd h (by simp)
          obtain ⟨hv3, hc3⟩ := b64CharOf_valOf h3
          obtain ⟨hv4, hc4⟩ := b64CharOf_valOf h4
          rcases htail : b64DecodeList (c5 :: rest') with e | tailBytes <;>
            rw [htail] at h <;> try dsimp only at h
          · exact absurd h (by simp)
          cases h
          have hrec := b64EncodeList_decodeList (c5 :: rest') tailBytes htail
          simp only [List.cons_append, List.nil_append, b64EncodeList]
          have e1 : (v1 * 4 + v2 / 16) / 4 = v1 := by omega
          have e2 : (v1 * 4 + v2 / 16) % 4 * 16 +
              (v2 % 16 * 16 + v3 / 4) / 16 = v2 := by omega
          have e3 : (v2 % 16 * 16 + v3 / 4) % 16 * 4 +
              (v3 % 4 * 64 + v4) / 64 = v3 := by omega
          have e4 : (v3 % 4 * 64 + v4) % 64 = v4 := by omega
          have enil : ([] : List Nat).append tailBytes = tailBytes := rfl
          rw [e1, e2, e3, e4, hc1, hc2, hc3, hc4, enil, hrec]

/-- `STANDARD.encode` inverts `STANDARD.decode` on every accepted
string (accepted = canonical). -/
theorem b64Encode_b64Decode {s : String} {bs : List Nat}
    (h : b64Decode s = .ok bs) : b64Encode bs = s := by
  obtain ⟨data⟩ := s
  unfold b64Encode
  rw [b64EncodeList_decodeList data bs h]

/-! ### Field-store and fold characterization (toward the textual round
trip) -/

theorem findStored_insert_self (f : FieldDescriptor) (v : PbValue)
    (store : List (FieldDescriptor × PbValue)) :
    findStored (insertField f v store) f.number = some v := by
  induction store with
  | nil => simp [insertField, findStored]
  | cons gv rest ih =>
      obtain ⟨g, w⟩ := gv
      by_cases h1 : f.number < g.number
      · simp [insertField, h1, findStored]
      · by_cases h2 : f.number = g.number
        · simp [insertField, h1, h2, findStored]
        · simp [insertField, h1, h2, findStored]
          rw [if_neg (by omega)]
          exact ih

theorem findStored_insert_other {n : Nat} {f : FieldDescriptor} (v : PbValue)
    (store : List (FieldDescriptor × PbValue)) (h : n ≠ f.number) :
    findStored (insertField f v store) n = findStored store n := by
  induction store with
  | nil =>
      simp only [insertField, findStored]
      rw [if_neg (fun hh => h hh.symm)]
  | cons gv rest ih =>
      obtain ⟨g, w⟩ := gv
      by_cases h1 : f.number < g.number
      · simp only [insertField, if_pos h1, findStored]
        rw [if_neg (by omega)]
      · by_cases h2 : f.number = g.number
        · simp only [insertField, if_neg h1, if_pos h2, findStored]
          rw [if_neg (by omega), if_neg (by omega)]
        · simp only [insertField, if_neg h1, if_neg h2, findStored]
          by_cases h3 : g.number = n
          · rw [if_pos h3, if_pos h3]
          · rw [if_neg h3, if_neg h3]
            exact ih

theorem insertField_length_fresh {f : FieldDescriptor} {v : PbValue}
    {store : List (FieldDescriptor × PbValue)}
    (h : findStored store f.number = none) :
    (insertField f v store).length = store.length + 1 := by
  induction store with
  | nil => simp [insertField]
  | cons gv rest ih =>
      obtain ⟨g, w⟩ := gv
      simp only [findStored] at h
      by_cases hg : g.number = f.number
      · rw [if_pos hg] at h
        exact absurd h (by simp)
      · rw [if_neg hg] at h
        by_cases h1 : f.number < g.number
        · simp [insertField, h1]
        · by_cases h2 : f.number = g.number
          · exact absurd h2.symm hg
          · simp only [insertField, if_neg h1, if_neg h2, List.length_cons]
            rw [ih h]

theorem jlookup_of_mem_nodup {entries : List (String × Json)} {k : String}
    {v : Json} (hnd : (entries.map Prod.fst).Nodup) (hm : (k, v) ∈ entries) :
    jlookup entries k = some v := by
  induction entries with
  | nil => simp at hm
  | cons kv rest ih =>
      obtain ⟨k0, v0⟩ := kv
      simp only [List.map_cons, List.nodup_cons] at hnd
      rcases List.mem_cons.mp hm with heq | hm'
      · cases heq
        simp [jlookup]
      · have hne : k0 ≠ k := by
          intro he
          exact hnd.1 (he ▸ (List.mem_map.mpr ⟨(k, v), hm', rfl⟩))
        simp only [jlookup, if_neg hne]
        exact ih hnd.2 hm'

theorem getFieldByName_name {m : MessageDescriptor} {k : String}
    {f : FieldDescriptor} (h : getFieldByName m k = some f) : f.name = k := by
  have := List.find?_some h
  simpa using this

/-- In a well-formed descriptor, fields with different names have
different numbers. -/
theorem number_ne_of_name_ne {d : MessageDescriptor} {f g : FieldDescriptor}
    (hwf : wfDesc d = true) (hf : f ∈ d.fields) (hg : g ∈ d.fields)
    (hname : f.name ≠ g.name) : f.number ≠ g.number := by
  intro heq
  exact hname (by rw [List.inj_on_of_nodup_map (wfDesc_nodup hwf) hf hg heq])

theorem jtpObj_desc {m : MessageDescriptor} :
    ∀ {entries : List (String × Json)} {acc dm : DynMessage},
      jtpObj m entries acc = .ok dm → dm.desc = acc.desc := by
  intro entries
  induction entries with
  | nil =>
      intro acc dm h
      simp only [jtpObj] at h
      cases h
      rfl
  | cons kv rest ih =>
      intro acc dm h
      obtain ⟨k, vv⟩ := kv
      rcases hf : getFieldByName m k with _ | f
      · rw [show jtpObj m ((k, vv) :: rest) acc = .error ("unknown field " ++ k)
          by simp [jtpObj, hf]] at h
        exact absurd h (by simp)
      · rcases hval : json_to_pbvalue f.kind vv with e | val
        · rw [show jtpObj m ((k, vv) :: rest) acc = .error e by
            simp [jtpObj, hf, hval]] at h
          exact absurd h (by simp)
        · rw [show jtpObj m ((k, vv) :: rest) acc =
            jtpObj m rest (acc.setField f val) by simp [jtpObj, hf, hval]] at h
          rw [ih h]
          obtain ⟨d, fs⟩ := acc
          rfl

theorem jtpObj_findStored_unchanged {m : MessageDescriptor} {n : Nat} :
    ∀ {entries : List (String × Json)} {acc dm : DynMessage},
      jtpObj m entries acc = .ok dm →
      (∀ kv ∈ entries, ∀ g, getFieldByName m kv.1 = some g → g.number ≠ n) →
      findStored dm.fields n = findStored acc.fields n := by
  intro entries
  induction entries with
  | nil =>
      intro acc dm h _
      simp only [jtpObj] at h
      cases h
      rfl
  | cons kv rest ih =>
      intro acc dm h hout
      obtain ⟨k, vv⟩ := kv
      rcases hf : getFieldByName m k with _ | f
      · rw [show jtpObj m ((k, vv) :: rest) acc = .error ("unknown field " ++ k)
          by simp [jtpObj, hf]] at h
        exact absurd h (by simp)
      · rcases hval : json_to_pbvalue f.kind vv with e | val
        · rw [show jtpObj m ((k, vv) :: rest) acc = .error e by
            simp [jtpObj, hf, hval]] at h
          exact absurd h (by simp)
        · rw [show jtpObj m ((k, vv) :: rest) acc =
            jtpObj m rest (acc.setField f val) by simp [jtpObj, hf, hval]] at h
          have hstep := ih h (fun kv hkv => hout kv (List.mem_cons_of_mem _ hkv))
          rw [hstep]
          obtain ⟨d, fs⟩ := acc
          simp only [DynMessage.setField, DynMessage.fields]
          exact findStored_insert_other val fs
            (fun he => hout (k, vv) (List.mem_cons_self _ _) f hf he.symm)

theorem jtpObj_origin {m : MessageDescriptor} {n : Nat} :
    ∀ {entries : List (String × Json)} {acc dm : DynMessage} {val : PbValue},
      jtpObj m entries acc = .ok dm →
      findStored dm.fields n = some val →
      findStored acc.fields n = some val ∨
        ∃ k v g, (k, v) ∈ entries ∧ getFieldByName m k = some g ∧
          g.number = n ∧ json_to_pbvalue g.kind v = .ok val := by
  intro entries
  induction entries with
  | nil =>
      intro acc dm val h hfind
      simp only [jtpObj] at h
      cases h
      exact Or.inl hfind
  | cons kv rest ih =>
      intro acc dm val h hfind
      obtain ⟨k, vv⟩ := kv
      rcases hf : getFieldByName m k with _ | f
      · rw [show jtpObj m ((k, vv) :: rest) acc = .error ("unknown field " ++ k)
          by simp [jtpObj, hf]] at h
        exact absurd h (by simp)
      · rcases hval : json_to_pbvalue f.kind vv with e | val0
        · rw [show jtpObj m ((k, vv) :: rest) acc = .error e by
            simp [jtpObj, hf, hval]] at h
          exact absurd h (by simp)
        · rw [show jtpObj m ((k, vv) :: rest) acc =
            jtpObj m rest (acc.setField f val0) by simp [jtpObj, hf, hval]] at h
          rcases ih h hfind with hacc | ⟨k', v', g, hm', hg, hn, hok⟩
          · obtain ⟨d, fs⟩ := acc
            simp only [DynMessage.setField, DynMessage.fields] at hacc
            by_cases hnum : n = f.number
            · subst hnum
              rw [findStored_insert_self] at hacc
              cases hacc
              exact Or.inr ⟨k, vv, f, List.mem_cons_self _ _, hf, rfl, hval⟩
            · rw [findStored_insert_other val0 fs hnum] at hacc
              exact Or.inl hacc
          · exact Or.inr ⟨k', v', g, List.mem_cons_of_mem _ hm', hg, hn, hok⟩

theorem jtpObj_length {m : MessageDescriptor} (hwf : wfDesc m = true) :
    ∀ {entries : List (String × Json)} {acc dm : DynMessage},
      jtpObj m entries acc = .ok dm →
      (entries.map Prod.fst).Nodup →
      (∀ kv ∈ entries, ∀ g, getFieldByName m kv.1 = some g →
        findStored acc.fields g.number = none) →
      dm.fields.length = acc.fields.length + entries.length := by
  intro entries
  induction entries with
  | nil =>
      intro acc dm h _ _
      simp only [jtpObj] at h
      cases h
      simp
  | cons kv rest ih =>
      intro acc dm h hnd hfresh
      obtain ⟨k, vv⟩ := kv
      rcases hf : getFieldByName m k with _ | f
      · rw [show jtpObj m ((k, vv) :: rest) acc = .error ("unknown field " ++ k)
          by simp [jtpObj, hf]] at h
        exact absurd h (by simp)
      · rcases hval : json_to_pbvalue f.kind vv with e | val
        · rw [show jtpObj m ((k, vv) :: rest) acc = .error e by
            simp [jtpObj, hf, hval]] at h
          exact absurd h (by simp)
        · rw [show jtpObj m ((k, vv) :: rest) acc =
            jtpObj m rest (acc.setField f val) by simp [jtpObj, hf, hval]] at h
          simp only [List.map_cons, List.nodup_cons] at hnd
          have hfrf : findStored acc.fields f.number = none :=
            hfresh (k, vv) (List.mem_cons_self _ _) f hf
          have hrec := ih h hnd.2 ?fresh
          case fresh =>
            intro kv' hkv' g hg
            obtain ⟨d, fs⟩ := acc
            simp only [DynMessage.setField, DynMessage.fields]
            have hkne : kv'.1 ≠ k := by
              intro he
              exact hnd.1 (he ▸ (List.mem_map.mpr ⟨kv', hkv', rfl⟩))
            have hgname : g.name = kv'.1 := getFieldByName_name hg
            have hfname : f.name = k := getFieldByName_name hf
            have hne : g.number ≠ f.number :=
              number_ne_of_name_ne hwf (getFieldByName_mem hg)
                (getFieldByName_mem hf) (by rw [hgname, hfname]; exact hkne)
            rw [findStored_insert_other val fs hne]
            exact hfresh kv' (List.mem_cons_of_mem _ hkv') g hg
          rw [hrec]
          obtain ⟨d, fs⟩ := acc
          simp only [DynMessage.setField, DynMessage.fields] at *
          rw [insertField_length_fresh hfrf]
          simp only [List.length_cons]
          omega

theorem storedJsons_lookup_present {n : Nat} :
    ∀ {stored : List (FieldDescriptor × PbValue)} {val : PbValue},
      findStored stored n = some val → val.isDefault = false →
      lookupNum (storedJsons stored) n = some (pbvalue_to_json val) := by
  intro stored
  induction stored with
  | nil => intro val hv _; simp [findStored] at hv
  | cons fv rest ih =>
      intro val hv hnd
      obtain ⟨f, v⟩ := fv
      simp only [findStored] at hv
      by_cases h : f.number = n
      · rw [if_pos h] at hv
        cases hv
        rw [show storedJsons ((f, val) :: rest) =
          (f.number, pbvalue_to_json val) :: storedJsons rest from by
            simp [storedJsons, hnd]]
        simp [lookupNum, h]
      · rw [if_neg h] at hv
        by_cases hd : v.isDefault
        · rw [show storedJsons ((f, v) :: rest) = storedJsons rest from by
            simp [storedJsons, hd]]
          exact ih hv hnd
        · rw [show storedJsons ((f, v) :: rest) =
            (f.number, pbvalue_to_json v) :: storedJsons rest from by
              simp [storedJsons, hd]]
          simp only [lookupNum]
          rw [if_neg h]
          exact ih hv hnd

theorem storedJsons_length_nondefault :
    ∀ {stored : List (FieldDescriptor × PbValue)},
      (∀ p ∈ stored, p.2.isDefault = false) →
      (storedJsons stored).length = stored.length := by
  intro stored
  induction stored with
  | nil => intro _; rfl
  | cons fv rest ih =>
      intro h
      obtain ⟨f, v⟩ := fv
      have hv : v.isDefault = false := h (f, v) (List.mem_cons_self _ _)
      rw [show storedJsons ((f, v) :: rest) =
        (f.number, pbvalue_to_json v) :: storedJsons rest from by
          simp [storedJsons, hv]]
      simp only [List.length_cons]
      rw [ih (fun p hp => h p (List.mem_cons_of_mem _ hp))]

theorem storedJsons_mem :
    ∀ {stored : List (FieldDescriptor × PbValue)} {p : Nat × Json},
      p ∈ storedJsons stored →
      ∃ f v, (f, v) ∈ stored ∧ p = (f.number, pbvalue_to_json v) := by
  intro stored
  induction stored with
  | nil => intro p h; simp [storedJsons] at h
  | cons fv rest ih =>
      intro p h
      obtain ⟨f, v⟩ := fv
      by_cases hd : v.isDefault
      · rw [show storedJsons ((f, v) :: rest) = storedJsons rest from by
          simp [storedJsons, hd]] at h
        obtain ⟨g, w, hm, he⟩ := ih h
        exact ⟨g, w, List.mem_cons_of_mem _ hm, he⟩
      · rw [show storedJsons ((f, v) :: rest) =
          (f.number, pbvalue_to_json v) :: storedJsons rest from by
            simp [storedJsons, hd]] at h
        rcases List.mem_cons.mp h with rfl | h
        · exact ⟨f, v, List.mem_cons_self _ _, rfl⟩
        · obtain ⟨g, w, hm, he⟩ := ih h
          exact ⟨g, w, List.mem_cons_of_mem _ hm, he⟩

theorem storedJsons_nodup :
    ∀ {stored : List (FieldDescriptor × PbValue)},
      storeSorted stored → ((storedJsons stored).map Prod.fst).Nodup := by
  intro stored
  induction stored with
  | nil => intro _; simp [storedJsons]
  | cons fv rest ih =>
      intro hs
      obtain ⟨f, v⟩ := fv
      rw [storeSorted, List.pairwise_cons] at hs
      by_cases hd : v.isDefault
      · rw [show storedJsons ((f, v) :: rest) = storedJsons rest from by
          simp [storedJsons, hd]]
        exact ih hs.2
      · rw [show storedJsons ((f, v) :: rest) =
          (f.number, pbvalue_to_json v) :: storedJsons rest from by
            simp [storedJsons, hd]]
        simp only [List.map_cons, List.nodup_cons]
        constructor
        · intro hmem
          rw [List.mem_map] at hmem
          obtain ⟨p, hp, hpe⟩ := hmem
          obtain ⟨g, w, hgm, rfl⟩ := storedJsons_mem hp
          have := hs.1 (g, w) hgm
          simp only at this hpe
          omega
        · exact ih hs.2

theorem selectFields_mem {dfs : List FieldDescriptor} {avail : List (Nat × Json)}
    {p : String × Json} (h : p ∈ selectFields dfs avail) :
    ∃ f ∈ dfs, ∃ j, lookupNum avail f.number = some j ∧ p = (f.name, j) := by
  induction dfs with
  | nil => simp [selectFields] at h
  | cons f rest ih =>
      simp only [selectFields] at h
      rcases hl : lookupNum avail f.number with _ | j <;> rw [hl] at h
      · obtain ⟨g, hg, j, hj, he⟩ := ih h
        exact ⟨g, List.mem_cons_of_mem _ hg, j, hj, he⟩
      · rcases List.mem_cons.mp h with rfl | h
        · exact ⟨f, List.mem_cons_self _ _, j, hl, rfl⟩
        · obtain ⟨g, hg, j', hj, he⟩ := ih h
          exact ⟨g, List.mem_cons_of_mem _ hg, j', hj, he⟩

theorem lookupNum_filter {avail : List (Nat × Json)} {n m : Nat} (h : m ≠ n) :
    lookupNum (avail.filter (fun p => !(p.1 == n))) m = lookupNum avail m := by
  induction avail with
  | nil => simp [lookupNum]
  | cons p rest ih =>
      obtain ⟨pn, pj⟩ := p
      by_cases hp : pn = n
      · subst hp
        simp only [List.filter_cons, beq_self_eq_true, Bool.not_true, if_neg]
        rw [show lookupNum ((pn, pj) :: rest) m = lookupNum rest m by
          simp only [lookupNum]
          rw [if_neg (fun he => h he.symm)]]
        simpa using ih
      · simp only [List.filter_cons]
        rw [if_pos (by simpa using hp)]
        simp only [lookupNum]
        by_cases he : pn = m
        · rw [if_pos he, if_pos he]
        · rw [if_neg he, if_neg he]
          exact ih

theorem selectFields_filter {dfs : List FieldDescriptor}
    {avail : List (Nat × Json)} {n : Nat}
    (h : ∀ f ∈ dfs, f.number ≠ n) :
    selectFields dfs (avail.filter (fun p => !(p.1 == n))) =
      selectFields dfs avail := by
  induction dfs with
  | nil => rfl
  | cons f rest ih =>
      simp only [selectFields]
      rw [lookupNum_filter (h f (List.mem_cons_self _ _))]
      rcases lookupNum avail f.number with _ | j
      · exact ih (fun g hg => h g (List.mem_cons_of_mem _ hg))
      · rw [ih (fun g hg => h g (List.mem_cons_of_mem _ hg))]

theorem filter_length_of_lookup {avail : List (Nat × Json)} {n : Nat} {j : Json}
    (hnd : (avail.map Prod.fst).Nodup) (h : lookupNum avail n = some j) :
    (avail.filter (fun p => !(p.1 == n))).length + 1 = avail.length := by
  induction avail with
  | nil => simp [lookupNum] at h
  | cons p rest ih =>
      obtain ⟨pn, pj⟩ := p
      simp only [List.map_cons, List.nodup_cons] at hnd
      simp only [lookupNum] at h
      by_cases hp : pn = n
      · subst hp
        simp only [List.filter_cons, beq_self_eq_true, Bool.not_true, if_neg]
        have hnone : ∀ q ∈ rest, ¬(q.1 = pn) := by
          intro q hq he
          exact hnd.1 (he ▸ (List.mem_map.mpr ⟨q, hq, rfl⟩))
        have : rest.filter (fun p => !(p.1 == pn)) = rest := by
          rw [List.filter_eq_self]
          intro q hq
          simpa using hnone q hq
        simp [this]
      · rw [if_neg hp] at h
        simp only [List.filter_cons]
        rw [if_pos (by simpa using hp)]
        simp only [List.length_cons]
        rw [← ih hnd.2 h]

theorem lookupNum_ne_none {avail : List (Nat × Json)} {n : Nat}
    (h : ∃ p ∈ avail, p.1 = n) : lookupNum avail n ≠ none := by
  induction avail with
  | nil => obtain ⟨p, hp, _⟩ := h; simp at hp
  | cons q rest ih =>
      obtain ⟨qn, qj⟩ := q
      simp only [lookupNum]
      obtain ⟨p, hp, hpn⟩ := h
      rcases List.mem_cons.mp hp with rfl | hp2
      · rw [if_pos hpn]
        simp
      · by_cases hq : qn = n
        · simp [hq]
        · rw [if_neg hq]
          exact ih ⟨p, hp2, hpn⟩

theorem selectFields_length {dfs : List FieldDescriptor} :
    ∀ {avail : List (Nat × Json)},
      (dfs.map (fun f => f.number)).Nodup →
      (avail.map Prod.fst).Nodup →
      (∀ p ∈ avail, ∃ f ∈ dfs, f.number = p.1) →
      (selectFields dfs avail).length = avail.length := by
  induction dfs with
  | nil =>
      intro avail _ _ hsub
      cases avail with
      | nil => rfl
      | cons p rest =>
          obtain ⟨f, hf, _⟩ := hsub p (List.mem_cons_self _ _)
          simp at hf
  | cons f rest ih =>
      intro avail hd ha hsub
      simp only [List.map_cons, List.nodup_cons] at hd
      simp only [selectFields]
      rcases hl : lookupNum avail f.number with _ | j
      · have hsub' : ∀ p ∈ avail, ∃ g ∈ rest, g.number = p.1 := by
          intro p hp
          obtain ⟨g, hg, hgn⟩ := hsub p hp
          rcases List.mem_cons.mp hg with rfl | hg
          · exfalso
            have : lookupNum avail g.number ≠ none :=
              lookupNum_ne_none ⟨p, hp, hgn.symm⟩
            exact this hl
          · exact ⟨g, hg, hgn⟩
        exact ih hd.2 ha hsub'
      · have hflt := filter_length_of_lookup ha hl
        have hself : selectFields rest (avail.filter (fun p => !(p.1 == f.number))) =
            selectFields rest avail := by
          apply selectFields_filter
          intro g hg he
          exact hd.1 (he ▸ (List.mem_map.mpr ⟨g, hg, rfl⟩))
        have hnd' : ((avail.filter (fun p => !(p.1 == f.number))).map Prod.fst).Nodup := by
          refine List.Nodup.sublist ?_ ha
          exact List.Sublist.map Prod.fst (List.filter_sublist _)
        have hsub' : ∀ p ∈ avail.filter (fun p => !(p.1 == f.number)),
            ∃ g ∈ rest, g.number = p.1 := by
          intro p hp
          have hpm := List.mem_of_mem_filter hp
          have hpp := List.of_mem_filter hp
          simp at hpp
          obtain ⟨g, hg, hgn⟩ := hsub p hpm
          rcases List.mem_cons.mp hg with rfl | hg
          · exact absurd hgn.symm hpp
          · exact ⟨g, hg, hgn⟩
        have hlen' := ih hd.2 hnd' hsub'
        rw [hself] at hlen'
        simp only [List.length_cons]
        omega

/-- `as_bool` succeeds only on a boolean. -/
theorem asBool_shape {v : Json} {b : Bool} (h : v.asBool = some b) :
    v = .bool b := by
  cases v with
  | bool a =>
      simp only [Json.asBool, Option.some.injEq] at h
      rw [h]
  | null => exact absurd h (by simp [Json.asBool])
  | num n => exact absurd h (by simp [Json.asBool])
  | str s => exact absurd h (by simp [Json.asBool])
  | arr xs => exact absurd h (by simp [Json.asBool])
  | obj fs => exact absurd h (by simp [Json.asBool])

/-- `as_i64` succeeds only on a number, and returns it unchanged. -/
theorem asI64_shape {v : Json} {n : Int} (h : v.asI64 = some n) :
    v = .num n := by
  cases v with
  | num m =>
      simp only [Json.asI64] at h
      by_cases hc : -(2 ^ 63) ≤ m ∧ m < 2 ^ 63
      · rw [if_pos hc] at h
        cases h
        rfl
      · rw [if_neg hc] at h
        exact absurd h (by simp)
  | null => exact absurd h (by simp [Json.asI64])
  | bool b => exact absurd h (by simp [Json.asI64])
  | str s => exact absurd h (by simp [Json.asI64])
  | arr xs => exact absurd h (by simp [Json.asI64])
  | obj fs => exact absurd h (by simp [Json.asI64])

/-- `as_u64` succeeds only on a nonnegative number, returned unchanged. -/
theorem asU64_shape {v : Json} {n : Nat} (h : v.asU64 = some n) :
    v = .num (n : Int) := by
  cases v with
  | num m =>
      simp only [Json.asU64] at h
      by_cases hc : 0 ≤ m ∧ m < 2 ^ 64
      · rw [if_pos hc] at h
        have hmn : m.toNat = n := by
          simpa using h
        have : m = (n : Int) := by omega
        rw [this]
      · rw [if_neg hc] at h
        exact absurd h (by simp)
  | null => exact absurd h (by simp [Json.asU64])
  | bool b => exact absurd h (by simp [Json.asU64])
  | str s => exact absurd h (by simp [Json.asU64])
  | arr xs => exact absurd h (by simp [Json.asU64])
  | obj fs => exact absurd h (by simp [Json.asU64])

/-- `as_str` succeeds only on a string. -/
theorem asStr_shape {v : Json} {s : String} (h : v.asStr = some s) :
    v = .str s := by
  cases v with
  | str t =>
      simp only [Json.asStr, Option.some.injEq] at h
      rw [h]
  | null => exact absurd h (by simp [Json.asStr])
  | bool b => exact absurd h (by simp [Json.asStr])
  | num n => exact absurd h (by simp [Json.asStr])
  | arr xs => exact absurd h (by simp [Json.asStr])
  | obj fs => exact absurd h (by simp [Json.asStr])

/-- `as u32` is the identity on values already below `2^32`. -/
theorem toU32_eq_self {n : Nat} (h : n < 2 ^ 32) : toU32 n = n :=
  Nat.mod_eq_of_lt h

theorem jsonEqv_num (a b : Int) : jsonEqv (.num a) (.num b) = (a == b) := by
  simp [jsonEqv, Json.beq]

theorem jsonEqv_bool (a b : Bool) : jsonEqv (.bool a) (.bool b) = (a == b) := by
  simp [jsonEqv, Json.beq]

theorem jsonEqv_str (a b : String) : jsonEqv (.str a) (.str b) = (a == b) := by
  simp [jsonEqv, Json.beq]

theorem jsonEqv_obj (a b : List (String × Json)) :
    jsonEqv (.obj a) (.obj b) = (a.length == b.length && jeqFields a b) := by
  simp [jsonEqv]

/-- `jeqFields` holds when every left entry has an equivalent match. -/
theorem jeqFields_of_forall {b : List (String × Json)} :
    ∀ {a : List (String × Json)},
      (∀ kv ∈ a, ∃ w, jlookup b kv.1 = some w ∧ jsonEqv kv.2 w = true) →
      jeqFields a b = true := by
  intro a
  induction a with
  | nil => intro _; simp [jeqFields]
  | cons kv rest ih =>
      intro h
      obtain ⟨k, v⟩ := kv
      obtain ⟨w, hw, he⟩ := h (k, v) (List.mem_cons_self _ _)
      have hrest := ih (fun p hp => h p (List.mem_cons_of_mem _ hp))
      simp [jeqFields, hw, he, hrest]

/-- Looking up, by the name of the first field that `find?` resolves a
key to, in the emitted field list recovers the value stored under that
field's number. -/
theorem jlookup_selectFields {avail : List (Nat × Json)} {k : String}
    {f : FieldDescriptor} {j : Json} :
    ∀ {dfs : List FieldDescriptor},
      dfs.find? (fun g => g.name == k) = some f →
      lookupNum avail f.number = some j →
      jlookup (selectFields dfs avail) k = some j := by
  intro dfs
  induction dfs with
  | nil => intro hf _; simp at hf
  | cons g rest ih =>
      intro hf hl
      by_cases hg : g.name = k
      · rw [List.find?_cons_of_pos _ (by simpa using hg)] at hf
        cases hf
        simp only [selectFields, hl, jlookup]
        rw [if_pos hg]
      · rw [List.find?_cons_of_neg _ (by simpa using hg)] at hf
        simp only [selectFields]
        rcases lookupNum avail g.number with _ | j'
        · exact ih hf hl
        · simp only [jlookup]
          rw [if_neg hg]
          exact ih hf hl

theorem getFieldByNumber_mem {d : MessageDescriptor} {n : Nat}
    {f : FieldDescriptor} (h : getFieldByNumber d n = some f) : f ∈ d.fields :=
  List.mem_of_find?_eq_some h

/-- Every stored field of a valid store resolves, by number, back to
itself. -/
theorem validStored_mem {desc : MessageDescriptor} :
    ∀ {fields : List (FieldDescriptor × PbValue)} {f : FieldDescriptor}
      {v : PbValue},
      validStored desc fields → (f, v) ∈ fields →
      getFieldByNumber desc f.number = some f := by
  intro fields
  induction fields with
  | nil => intro f v _ hm; simp at hm
  | cons fv rest ih =>
      intro f v hv hm
      obtain ⟨g, w⟩ := fv
      simp only [validStored] at hv
      rcases List.mem_cons.mp hm with heq | hm'
      · rw [Prod.mk.injEq] at heq
        obtain ⟨h1, _⟩ := heq
        subst h1
        exact hv.1
      · exact ih hv.2.2 hm'

/-- Each entry of a text-valid document resolves to a field whose kind
accepts the entry's value. -/
theorem textOkEntries_mem {m : MessageDescriptor} :
    ∀ {entries : List (String × Json)} {k : String} {v : Json},
      textOkEntries m entries = true → (k, v) ∈ entries →
      ∃ f, getFieldByName m k = some f ∧ textOk f.kind v = true := by
  intro entries
  induction entries with
  | nil => intro k v _ hm; simp at hm
  | cons kv rest ih =>
      intro k v ht hm
      obtain ⟨k', v'⟩ := kv
      simp only [textOkEntries, Bool.and_eq_true] at ht
      rcases List.mem_cons.mp hm with heq | hm'
      · rw [Prod.mk.injEq] at heq
        obtain ⟨h1, h2⟩ := heq
        subst h1
        subst h2
        rcases hf : getFieldByName m k with _ | f
        · rw [hf] at ht
          exact absurd ht.1 (by simp)
        · rw [hf] at ht
          exact ⟨f, rfl, ht.1⟩
      · exact ih ht.2 hm'

/-- A JSON value bound in an object is smaller than the object. -/
theorem sizeOf_lt_of_mem_obj {entries : List (String × Json)} {k : String}
    {v : Json} (h : (k, v) ∈ entries) : sizeOf v < sizeOf (Json.obj entries) := by
  have h1 := List.sizeOf_lt_of_mem h
  have h2 : sizeOf (Json.obj entries) = 1 + sizeOf entries := by simp
  have h3 : sizeOf (k, v) = 1 + sizeOf k + sizeOf v := by simp
  omega

/-- On success, `build_from_json`'s field loop computes the same message
as the nested-object loop of `json_to_pbvalue` (the two differ only in
the text of the unknown-field error). -/
theorem buildFields_to_jtpObj {name : String} {desc : MessageDescriptor} :
    ∀ {entries : List (String × Json)} {acc dm : DynMessage},
      buildFields name desc entries acc = .ok dm →
      jtpObj desc entries acc = .ok dm := by
  intro entries
  induction entries with
  | nil =>
      intro acc dm h
      simp only [buildFields] at h
      simp only [jtpObj]
      exact h
  | cons kv rest ih =>
      intro acc dm h
      obtain ⟨k, v⟩ := kv
      rcases hf : getFieldByName desc k with _ | f
      · rw [show buildFields name desc ((k, v) :: rest) acc =
          .error ("unknown field " ++ k ++ " for " ++ name) by
            simp [buildFields, hf]] at h
        exact absurd h (by simp)
      · rcases hval : json_to_pbvalue f.kind v with e | val
        · rw [show buildFields name desc ((k, v) :: rest) acc = .error e by
            simp [buildFields, hf, hval]] at h
          exact absurd h (by simp)
        · rw [show buildFields name desc ((k, v) :: rest) acc =
            buildFields name desc rest (acc.setField f val) by
              simp [buildFields, hf, hval]] at h
          rw [show jtpObj desc ((k, v) :: rest) acc =
            jtpObj desc rest (acc.setField f val) by simp [jtpObj, hf, hval]]
          exact ih h

/-- When the nested-object loop succeeds on a duplicate-free document,
every entry's converted value is stored under its field's number in the
result. -/
theorem jtpObj_stores {m : MessageDescriptor} (hwf : wfDesc m = true) :
    ∀ {entries : List (String × Json)} {acc dm : DynMessage} {k : String}
      {w : Json} {f : FieldDescriptor},
      jtpObj m entries acc = .ok dm →
      (entries.map Prod.fst).Nodup →
      (k, w) ∈ entries →
      getFieldByName m k = some f →
      ∃ val, json_to_pbvalue f.kind w = .ok val ∧
        findStored dm.fields f.number = some val := by
  intro entries
  induction entries with
  | nil => intro acc dm k w f _ _ hmem _; simp at hmem
  | cons kv rest ih =>
      intro acc dm k w f h hnd hmem hf
      obtain ⟨k', w'⟩ := kv
      rcases hf' : getFieldByName m k' with _ | f'
      · rw [show jtpObj m ((k', w') :: rest) acc = .error ("unknown field " ++ k')
          by simp [jtpObj, hf']] at h
        exact absurd h (by simp)
      · rcases hval : json_to_pbvalue f'.kind w' with e | val'
        · rw [show jtpObj m ((k', w') :: rest) acc = .error e by
            simp [jtpObj, hf', hval]] at h
          exact absurd h (by simp)
        · rw [show jtpObj m ((k', w') :: rest) acc =
            jtpObj m rest (acc.setField f' val') by simp [jtpObj, hf', hval]] at h
          simp only [List.map_cons, List.nodup_cons] at hnd
          rcases List.mem_cons.mp hmem with heq | hmem'
          · rw [Prod.mk.injEq] at heq
            obtain ⟨h1, h2⟩ := heq
            subst h1
            subst h2
            rw [hf] at hf'
            injection hf' with hff
            subst hff
            refine ⟨val', hval, ?_⟩
            have hout : ∀ kv2 ∈ rest, ∀ g, getFieldByName m kv2.1 = some g →
                g.number ≠ f.number := by
              intro kv2 hkv2 g hg
              have hkne : kv2.1 ≠ k := by
                intro he
                exact hnd.1 (he ▸ (List.mem_map.mpr ⟨kv2, hkv2, rfl⟩))
              exact number_ne_of_name_ne hwf (getFieldByName_mem hg)
                (getFieldByName_mem hf)
                (by rw [getFieldByName_name hg, getFieldByName_name hf]
                    exact hkne)
            have hunch := jtpObj_findStored_unchanged h hout
            rw [hunch]
            obtain ⟨d, fs⟩ := acc
            simp only [DynMessage.setField, DynMessage.fields]
            exact findStored_insert_self f val' fs
          · exact ih h hnd.2 hmem' hf

/-- When the nested-object loop succeeds, every stored field of the
result either came from the accumulator or is the converted value of
some document entry. -/
theorem jtpObj_members {m : MessageDescriptor} :
    ∀ {entries : List (String × Json)} {acc dm : DynMessage},
      jtpObj m entries acc = .ok dm →
      ∀ p ∈ dm.fields, p ∈ acc.fields ∨
        ∃ k v, (k, v) ∈ entries ∧ getFieldByName m k = some p.1 ∧
          json_to_pbvalue p.1.kind v = .ok p.2 := by
  intro entries
  induction entries with
  | nil =>
      intro acc dm h p hp
      simp only [jtpObj] at h
      cases h
      exact Or.inl hp
  | cons kv rest ih =>
      intro acc dm h p hp
      obtain ⟨k, vv⟩ := kv
      rcases hf : getFieldByName m k with _ | f
      · rw [show jtpObj m ((k, vv) :: rest) acc = .error ("unknown field " ++ k)
          by simp [jtpObj, hf]] at h
        exact absurd h (by simp)
      · rcases hval : json_to_pbvalue f.kind vv with e | val
        · rw [show jtpObj m ((k, vv) :: rest) acc = .error e by
            simp [jtpObj, hf, hval]] at h
          exact absurd h (by simp)
        · rw [show jtpObj m ((k, vv) :: rest) acc =
            jtpObj m rest (acc.setField f val) by simp [jtpObj, hf, hval]] at h
          rcases ih h p hp with hacc | ⟨k2, v2, hm2, hg2, hc2⟩
          · obtain ⟨d, fs⟩ := acc
            simp only [DynMessage.setField, DynMessage.fields] at hacc
            rcases insertField_mem hacc with rfl | hfs
            · exact Or.inr ⟨k, vv, List.mem_cons_self _ _, hf, hval⟩
            · exact Or.inl hfs
          · exact Or.inr ⟨k2, v2, List.mem_cons_of_mem _ hm2, hg2, hc2⟩

/-- Faithfulness of conversion on text-valid documents: when
`json_to_pbvalue` accepts a leaf or object that already has the kind's
declared JSON type, width and canonical non-default form, converting the
produced value back to JSON reproduces the input up to serde object
equality — and the produced value is never the kind's proto3 default, so
the field it is stored under stays present (`has_field`). -/
theorem jtp_faithful (N : Nat) :
    ∀ (k : Kind) (v : Json) (pv : PbValue),
      sizeOf v < N → wfKind k = true → textOk k v = true →
      json_to_pbvalue k v = .ok pv →
      jsonEqv v (pbvalue_to_json pv) = true ∧ pv.isDefault = false := by
  induction N with
  | zero => intro k v pv hs _ _ _; exact absurd hs (Nat.not_lt_zero _)
  | succ N ih =>
      intro k v pv hs hwf htext hok
      cases k with
      | bool =>
          rcases hb : v.asBool with _ | b <;> simp [json_to_pbvalue, hb] at hok
          have hv := asBool_shape hb
          subst hv
          rw [← hok]
          simp only [textOk] at htext
          subst htext
          constructor
          · simp [pbvalue_to_json, jsonEqv_bool]
          · simp [PbValue.isDefault]
      | int32 =>
          rcases hb : v.asI64 with _ | n <;> simp [json_to_pbvalue, hb] at hok
          have hv := asI64_shape hb
          subst hv
          rw [← hok]
          simp only [textOk, decide_eq_true_eq] at htext
          rw [toI32_eq_self htext.1 htext.2.1]
          constructor
          · rw [show pbvalue_to_json (.i32 n) = .num n from by
              simp [pbvalue_to_json]]
            rw [jsonEqv_num]
            simp
          · simp [PbValue.isDefault, htext.2.2]
      | sint32 =>
          rcases hb : v.asI64 with _ | n <;> simp [json_to_pbvalue, hb] at hok
          have hv := asI64_shape hb
          subst hv
          rw [← hok]
          simp only [textOk, decide_eq_true_eq] at htext
          rw [toI32_eq_self htext.1 htext.2.1]
          constructor
          · rw [show pbvalue_to_json (.i32 n) = .num n from by
              simp [pbvalue_to_json]]
            rw [jsonEqv_num]
            simp
          · simp [PbValue.isDefault, htext.2.2]
      | sfixed32 =>
          rcases hb : v.asI64 with _ | n <;> simp [json_to_pbvalue, hb] at hok
          have hv := asI64_shape hb
          subst hv
          rw [← hok]
          simp only [textOk, decide_eq_true_eq] at htext
          rw [toI32_eq_self htext.1 htext.2.1]
          constructor
          · rw [show pbvalue_to_json (.i32 n) = .num n from by
              simp [pbvalue_to_json]]
            rw [jsonEqv_num]
            simp
          · simp [PbValue.isDefault, htext.2.2]
      | int64 =>
          rcases hb : v.asI64 with _ | n <;> simp [json_to_pbvalue, hb] at hok
          have hv := asI64_shape hb
          subst hv
          rw [← hok]
          simp only [textOk, decide_eq_true_eq] at htext
          constructor
          · simp [pbvalue_to_json, jsonEqv_num]
          · simp [PbValue.isDefault, htext.2.2]
      | sint64 =>
          rcases hb : v.asI64 with _ | n <;> simp [json_to_pbvalue, hb] at hok
          have hv := asI64_shape hb
          subst hv
          rw [← hok]
          simp only [textOk, decide_eq_true_eq] at htext
          constructor
          · simp [pbvalue_to_json, jsonEqv_num]
          · simp [PbValue.isDefault, htext.2.2]
      | sfixed64 =>
          rcases hb : v.asI64 with _ | n <;> simp [json_to_pbvalue, hb] at hok
          have hv := asI64_shape hb
          subst hv
          rw [← hok]
          simp only [textOk, decide_eq_true_eq] at htext
          constructor
          · simp [pbvalue_to_json, jsonEqv_num]
          · simp [PbValue.isDefault, htext.2.2]
      | uint32 =>
          rcases hb : v.asU64 with _ | n <;> simp [json_to_pbvalue, hb] at hok
          have hv := asU64_shape hb
          subst hv
          rw [← hok]
          simp only [textOk, decide_eq_true_eq] at htext
          have hn : n < 2 ^ 32 := by
            have h2 := htext.2
            omega
          have hnz : n ≠ 0 := by
            have h1 := htext.1
            omega
          rw [show toU32 n = n from toU32_eq_self hn]
          constructor
          · rw [show pbvalue_to_json (.u32 n) = .num (n : Int) from by
              simp [pbvalue_to_json]]
            rw [jsonEqv_num]
            simp
          · simp [PbValue.isDefault, hnz]
      | fixed32 =>
          rcases hb : v.asU64 with _ | n <;> simp [json_to_pbvalue, hb] at hok
          have hv := asU64_shape hb
          subst hv
          rw [← hok]
          simp only [textOk, decide_eq_true_eq] at htext
          have hn : n < 2 ^ 32 := by
            have h2 := htext.2
            omega
          have hnz : n ≠ 0 := by
            have h1 := htext.1
            omega
          rw [show toU32 n = n from toU32_eq_self hn]
          constructor
          · rw [show pbvalue_to_json (.u32 n) = .num (n : Int) from by
              simp [pbvalue_to_json]]
            rw [jsonEqv_num]
            simp
          · simp [PbValue.isDefault, hnz]
      | uint64 =>
          rcases hb : v.asU64 with _ | n <;> simp [json_to_pbvalue, hb] at hok
          have hv := asU64_shape hb
          subst hv
          rw [← hok]
          simp only [textOk, decide_eq_true_eq] at htext
          have hnz : n ≠ 0 := by
            have h1 := htext.1
            omega
          constructor
          · simp [pbvalue_to_json, jsonEqv_num]
          · simp [PbValue.isDefault, hnz]
      | fixed64 =>
          rcases hb : v.asU64 with _ | n <;> simp [json_to_pbvalue, hb] at hok
          have hv := asU64_shape hb
          subst hv
          rw [← hok]
          simp only [textOk, decide_eq_true_eq] at htext
          have hnz : n ≠ 0 := by
            have h1 := htext.1
            omega
          constructor
          · simp [pbvalue_to_json, jsonEqv_num]
          · simp [PbValue.isDefault, hnz]
      | float =>
          exfalso
          cases v <;> simp [textOk] at htext
      | double =>
          exfalso
          cases v <;> simp [textOk] at htext
      | string =>
          rcases hb : v.asStr with _ | s <;> simp [json_to_pbvalue, hb] at hok
          have hv := asStr_shape hb
          subst hv
          rw [← hok]
          simp only [textOk, Bool.not_eq_eq_eq_not, Bool.not_true] at htext
          constructor
          · simp [pbvalue_to_json, jsonEqv_str]
          · simp only [PbValue.isDefault]
            exact htext
      | bytes =>
          rcases hb : v.asStr with _ | s <;> simp [json_to_pbvalue, hb] at hok
          rcases hd : b64Decode s with e | bs <;> rw [hd] at hok <;> simp at hok
          have hv := asStr_shape hb
          subst hv
          rw [← hok]
          simp only [textOk] at htext
          rw [hd] at htext
          cases bs with
          | nil => simp at htext
          | cons b0 bs0 =>
              constructor
              · rw [show pbvalue_to_json (.bytes (b0 :: bs0)) =
                  .str (b64Encode (b0 :: bs0)) from by simp [pbvalue_to_json]]
                rw [b64Encode_b64Decode hd, jsonEqv_str]
                simp
              · simp [PbValue.isDefault]
      | enum ed =>
          rcases hb : v.asStr with _ | s
          · rcases hi : v.asI64 with _ | i <;>
              simp [json_to_pbvalue, hb, hi] at hok
            have hv := asI64_shape hi
            subst hv
            rw [← hok]
            simp only [textOk, decide_eq_true_eq] at htext
            rw [toI32_eq_self htext.1 htext.2.1]
            constructor
            · rw [show pbvalue_to_json (.enumNumber i) = .num i from by
                simp [pbvalue_to_json]]
              rw [jsonEqv_num]
              simp
            · simp [PbValue.isDefault, htext.2.2]
          · exfalso
            have hv := asStr_shape hb
            subst hv
            simp [textOk] at htext
      | message md =>
          cases v with
          | obj entries =>
              simp only [json_to_pbvalue] at hok
              rcases hsub : jtpObj md entries (DynMessage.mk md []) with e | dm <;>
                rw [hsub] at hok <;> simp at hok
              rw [← hok]
              refine ⟨?_, by simp [PbValue.isDefault]⟩
              have hwfd : wfDesc md = true := by simpa [wfKind] using hwf
              simp only [textOk, Bool.and_eq_true, decide_eq_true_eq] at htext
              have hval := jtpObj_valid md entries (DynMessage.mk md []) dm hwfd
                ⟨rfl, by constructor <;> simp [storeSorted, validStored]⟩ hsub
              have hnondef : ∀ p ∈ dm.fields, p.2.isDefault = false := by
                intro p hp
                rcases jtpObj_members hsub p hp with hacc | ⟨k2, v2, hm2, hg2, hc2⟩
                · simp [DynMessage.fields] at hacc
                · obtain ⟨f2, hf2, ht2⟩ := textOkEntries_mem htext.2 hm2
                  rw [hg2] at hf2
                  injection hf2 with hf2
                  subst hf2
                  have hsw2 : sizeOf v2 < N := by
                    have h4 := sizeOf_lt_of_mem_obj hm2
                    omega
                  exact (ih p.1.kind v2 p.2 hsw2
                    (wfDesc_kinds hwfd p.1 (getFieldByName_mem hg2)) ht2 hc2).2
              obtain ⟨d0, fields⟩ := dm
              have hdesc := hval.1
              have hvm := hval.2
              simp only [DynMessage.desc] at hdesc
              subst hdesc
              simp only [validMsg] at hvm
              have hsorted := hvm.1
              have hstored := hvm.2
              simp only [DynMessage.fields] at hnondef
              obtain ⟨fullname, dfs⟩ := d0
              rw [show pbvalue_to_json
                  (.message (DynMessage.mk (.mk fullname dfs) fields)) =
                  Json.obj (selectFields dfs (storedJsons fields)) from by
                simp [pbvalue_to_json, dynamic_to_json]]
              rw [jsonEqv_obj, Bool.and_eq_true]
              refine ⟨?_, ?_⟩
              · have hfresh : ∀ kv ∈ entries, ∀ g,
                    getFieldByName (MessageDescriptor.mk fullname dfs) kv.1 =
                      some g →
                    findStored (DynMessage.mk
                      (MessageDescriptor.mk fullname dfs) []).fields g.number =
                      none := by
                  intro kv _ g _
                  rfl
                have h1 := jtpObj_length hwfd hsub htext.1 hfresh
                simp only [DynMessage.fields, List.length_nil] at h1
                have h2 := storedJsons_length_nondefault hnondef
                have h3 : (selectFields dfs (storedJsons fields)).length =
                    (storedJsons fields).length := by
                  apply selectFields_length
                  · have h4 := wfDesc_nodup hwfd
                    simpa [MessageDescriptor.fields] using h4
                  · exact storedJsons_nodup hsorted
                  · intro p hp
                    obtain ⟨f, v2, hm, rfl⟩ := storedJsons_mem hp
                    refine ⟨f, ?_, rfl⟩
                    have hnum := validStored_mem hstored hm
                    have h5 := getFieldByNumber_mem hnum
                    simpa [MessageDescriptor.fields] using h5
                simp only [beq_iff_eq]
                omega
              · apply jeqFields_of_forall
                intro kv hkv
                obtain ⟨k, w⟩ := kv
                obtain ⟨f, hf, htw⟩ := textOkEntries_mem htext.2 hkv
                obtain ⟨val, hconv, hfind⟩ := jtpObj_stores hwfd hsub htext.1 hkv hf
                simp only [DynMessage.fields] at hfind
                have hsw : sizeOf w < N := by
                  have h4 := sizeOf_lt_of_mem_obj hkv
                  omega
                have hih := ih f.kind w val hsw
                  (wfDesc_kinds hwfd f (getFieldByName_mem hf)) htw hconv
                have hlook : lookupNum (storedJsons fields) f.number =
                    some (pbvalue_to_json val) :=
                  storedJsons_lookup_present hfind hih.2
                have hjl : jlookup (selectFields dfs (storedJsons fields)) k =
                    some (pbvalue_to_json val) :=
                  jlookup_selectFields
                    (by simpa [getFieldByName, MessageDescriptor.fields] using hf)
                    hlook
                exact ⟨pbvalue_to_json val, hjl, hih.1⟩
          | null => simp [json_to_pbvalue] at hok
          | bool b => simp [json_to_pbvalue] at hok
          | num n => simp [json_to_pbvalue] at hok
          | str s => simp [json_to_pbvalue] at hok
          | arr xs => simp [json_to_pbvalue] at hok

/-! ### Claim C6 (corrected) -/

/-- Counterexample to C6 as stated: the body `{"seq": 4294967296}` on an
`int32` field builds successfully but wraps to `0` — the field's default,
on which `has_field` is false — so the JSON emitted for the built
message is `{}`, not the body that was sent: the textual round trip is
not the identity on every accepted body. -/
theorem c6_counterexample_wraparound_changes_body :
    build_from_json ⟨[.mk "company.project.v1.Ping" [.mk "seq" 1 .int32]]⟩
        "Ping" (.obj [("seq", .num 4294967296)]) =
      .ok (DynMessage.mk
        (.mk "company.project.v1.Ping" [.mk "seq" 1 .int32])
        [(.mk "seq" 1 .int32, .i32 0)]) ∧
    to_json_value (DynMessage.mk
        (.mk "company.project.v1.Ping" [.mk "seq" 1 .int32])
        [(.mk "seq" 1 .int32, .i32 0)]) = .obj [] ∧
    jsonEqv (.obj []) (.obj [("seq", .num 4294967296)]) = false := by
  refine ⟨?_, ?_, ?_⟩
  · simp [build_from_json, message_desc, get_message_by_name, List.find?,
      shortNameOf, lastSegAux, MessageDescriptor.fullName, buildFields,
      getFieldByName, FieldDescriptor.name, FieldDescriptor.kind,
      FieldDescriptor.number, json_to_pbvalue, Json.asI64, toI32,
      DynMessage.setField, insertField]
  · simp [to_json_value, dynamic_to_json, storedJsons, selectFields, lookupNum,
      pbvalue_to_json, PbValue.isDefault, FieldDescriptor.number,
      FieldDescriptor.name]
  · simp [jsonEqv_obj]

/-- C6 (amended): textual round trip.  For a body whose keys are
pairwise-distinct schema fields and whose leaf values already have each
field's declared JSON type and width and are not the kind's proto3
default — enums numeric, non-zero and in range, bytes canonical
non-empty base64, no float or double fields (the `textOk` guard) — a
successful `build_from_json` followed by `to_json_value` reproduces the
body up to serde object equality (the emitted object lists fields in
descriptor order).  Outside the guard the round trip can change the
body: enum names are re-emitted as numbers, overwide integers wrap (see
the counterexample), non-canonical base64 is re-encoded canonically, and
a default leaf on an implicit-presence field is omitted entirely. -/
theorem c6_textual_round_trip (pool : DescriptorPool) (name : String)
    (entries : List (String × Json)) (dm : DynMessage)
    (hpool : wfPool pool = true)
    (hbuild : build_from_json pool name (.obj entries) = .ok dm)
    (htext : textOk (.message dm.desc) (.obj entries) = true) :
    jsonEqv (.obj entries) (to_json_value dm) = true := by
  unfold build_from_json at hbuild
  rcases hd : message_desc pool name with e | desc <;> rw [hd] at hbuild
  · exact absurd hbuild (by simp)
  · have hjtp := buildFields_to_jtpObj hbuild
    have hdesc : dm.desc = desc := jtpObj_desc hjtp
    have hwfd : wfDesc desc = true := wfPool_desc hpool (message_desc_mem hd)
    have hok : json_to_pbvalue (.message desc) (.obj entries) =
        .ok (.message dm) := by
      simp [json_to_pbvalue, hjtp]
    have hmain := jtp_faithful (sizeOf (Json.obj entries) + 1) (.message desc)
      (.obj entries) (.message dm) (Nat.lt_succ_self _)
      (by simp [wfKind, hwfd]) (by rw [hdesc] at htext; exact htext) hok
    rw [show pbvalue_to_json (.message dm) = to_json_value dm from by
      simp [pbvalue_to_json, to_json_value]] at hmain
    exact hmain.1

/-- Witness for C6 (amended): the body
`{"alpha": 5, "beta": "hi"}` on `Ping {alpha: int32 = 1; beta: string = 2}`
builds and converts back to an equivalent object. -/
theorem c6_textual_round_trip_witness :
    wfPool ⟨[.mk "company.project.v1.Ping"
        [.mk "alpha" 1 .int32, .mk "beta" 2 .string]]⟩ = true ∧
    build_from_json ⟨[.mk "company.project.v1.Ping"
        [.mk "alpha" 1 .int32, .mk "beta" 2 .string]]⟩ "Ping"
        (.obj [("alpha", .num 5), ("beta", .str "hi")]) =
      .ok (DynMessage.mk
        (.mk "company.project.v1.Ping"
          [.mk "alpha" 1 .int32, .mk "beta" 2 .string])
        [(.mk "alpha" 1 .int32, .i32 5), (.mk "beta" 2 .string, .str "hi")]) ∧
    textOk (.message (DynMessage.mk
        (.mk "company.project.v1.Ping"
          [.mk "alpha" 1 .int32, .mk "beta" 2 .string])
        [(.mk "alpha" 1 .int32, .i32 5),
         (.mk "beta" 2 .string, .str "hi")]).desc)
      (.obj [("alpha", .num 5), ("beta", .str "hi")]) = true ∧
    jsonEqv (.obj [("alpha", .num 5), ("beta", .str "hi")])
      (to_json_value (DynMessage.mk
        (.mk "company.project.v1.Ping"
          [.mk "alpha" 1 .int32, .mk "beta" 2 .string])
        [(.mk "alpha" 1 .int32, .i32 5),
         (.mk "beta" 2 .string, .str "hi")])) = true := by
  have h1 : wfPool ⟨[.mk "company.project.v1.Ping"
      [.mk "alpha" 1 .int32, .mk "beta" 2 .string]]⟩ = true := by
    simp [wfPool, wfDesc, wfFieldList, wfKind, FieldDescriptor.number,
      FieldDescriptor.kind]
  have h2 : build_from_json ⟨[.mk "company.project.v1.Ping"
      [.mk "alpha" 1 .int32, .mk "beta" 2 .string]]⟩ "Ping"
      (.obj [("alpha", .num 5), ("beta", .str "hi")]) =
      .ok (DynMessage.mk
        (.mk "company.project.v1.Ping"
          [.mk "alpha" 1 .int32, .mk "beta" 2 .string])
        [(.mk "alpha" 1 .int32, .i32 5),
         (.mk "beta" 2 .string, .str "hi")]) := by
    simp [build_from_json, message_desc, get_message_by_name, List.find?,
      shortNameOf, lastSegAux, MessageDescriptor.fullName, buildFields,
      getFieldByName, FieldDescriptor.name, FieldDescriptor.kind,
      FieldDescriptor.number, json_to_pbvalue, Json.asI64, Json.asStr, toI32,
      DynMessage.setField, insertField]
  have h3 : textOk (.message (DynMessage.mk
      (.mk "company.project.v1.Ping"
        [.mk "alpha" 1 .int32, .mk "beta" 2 .string])
      [(.mk "alpha" 1 .int32, .i32 5),
       (.mk "beta" 2 .string, .str "hi")]).desc)
      (.obj [("alpha", .num 5), ("beta", .str "hi")]) = true := by
    simp [DynMessage.desc, textOk, textOkEntries, getFieldByName, List.find?,
      FieldDescriptor.name, FieldDescriptor.kind]
  exact ⟨h1, h2, h3,
    c6_textual_round_trip ⟨[.mk "company.project.v1.Ping"
        [.mk "alpha" 1 .int32, .mk "beta" 2 .string]]⟩ "Ping"
      [("alpha", .num 5), ("beta", .str "hi")]
      (DynMessage.mk
        (.mk "company.project.v1.Ping"
          [.mk "alpha" 1 .int32, .mk "beta" 2 .string])
        [(.mk "alpha" 1 .int32, .i32 5),
         (.mk "beta" 2 .string, .str "hi")]) h1 h2 h3⟩

end RustBdd
